import Mathlib

/-!
Verification development for dandelion/tools/_network.py.

The file shallowly embeds the algorithmic core of the repository:

* the per-cluster minimum-spanning-tree construction
  (`mst`, which runs scipy's Kruskal algorithm on the strictly upper
  triangular nonzero entries of a distance sub-matrix and stores the
  resulting tree matrix with entries converted by `astype(int)`),
* the distance-matrix combination step of `generate_network`
  (simple and weighted modes),
* the edge-list assembly of `generate_network` (per-cluster MST edge
  rows, the lower/upper-triangular fallback rows per clone, the
  `combine_first` merge keyed on ordered (source, target) pairs, the
  weight overwrite from the total distance matrix, and the
  all-singletons empty-result path),
* `clone_degree` (the networkx graph built from
  `zip(index, index, A.data)` and its weighted degree),
* `generate_layout` (networkx graph construction, the trimming policy,
  the zero-edge unpack failure) and the vendored Fruchterman-Reingold
  layout routines `_fruchterman_reingold` (dense) and
  `_sparse_fruchterman_reingold` (sparse), plus `_rescale_layout`.

Real numbers produced by numpy are modelled by exact rationals; the
square root used inside vector norms is modelled by `ratSqrt`, an exact
rational square root (exact on every rational that is a square of a
rational, which covers all values arising in the concrete evaluations
below, where positions are kept on a single axis).  Random draws are
modelled by explicit streams of rationals, and numpy's ambient global
random state is passed around as an explicit stream, mirroring how
networkx's `random_state` decorator resolves a `seed=None` argument.
-/

namespace Dandelion

/-- Truncation of a rational toward zero, modelling numpy's
`astype(int)` conversion applied by `mst` to the spanning-tree matrix. -/
def truncInt (q : ℚ) : ℤ := q.num.tdiv (q.den : ℤ)

/-- Newton (Heron) iteration for the integer square root, written with
structural fuel so that it evaluates inside the kernel. -/
def heronGo (n : ℕ) : ℕ → ℕ → ℕ
  | x, 0 => x
  | x, f + 1 =>
    let y := (x + n / x) / 2
    if y < x then heronGo n y f else x

/-- Integer square root by Newton iteration (exact floor square root for
every argument below 2^128, far beyond anything evaluated here). -/
def natSqrt (n : ℕ) : ℕ := if n = 0 then 0 else heronGo n n 128

/-- Exact rational square root: integer square roots of numerator and
denominator.  This models `np.sqrt`/`np.linalg.norm`; it agrees with the
real square root on every rational whose numerator and denominator are
perfect squares, in particular on the square of any rational. -/
def ratSqrt (q : ℚ) : ℚ := ((natSqrt q.num.toNat : ℕ) : ℚ) / ((natSqrt q.den : ℕ) : ℚ)

/-! ## Kruskal minimum spanning tree (scipy.sparse.csgraph.minimum_spanning_tree)

The source builds, per retained cluster, `minimum_spanning_tree(np.triu(mat))`:
the graph whose edges are the strictly upper triangular nonzero entries of the
sub-matrix (zero entries are not stored in the CSR representation and are
therefore non-edges), processed by Kruskal's algorithm: edges sorted by weight
ascending, an edge kept exactly when its endpoints lie in distinct connected
components of the edges kept so far. -/

/-- Row-major list of the strictly upper-triangular nonzero entries of a
sub-matrix: the candidate edge list of the per-cluster MST graph. -/
def upperEdges (n : ℕ) (d : Fin n → Fin n → ℚ) : List (Fin n × Fin n) :=
  ((List.finRange n) ×ˢ (List.finRange n)).filter fun p => decide (p.1 < p.2 ∧ d p.1 p.2 ≠ 0)

/-- Weight comparison used to sort candidate edges ascending. -/
def edgeLE (n : ℕ) (d : Fin n → Fin n → ℚ) (a b : Fin n × Fin n) : Prop :=
  d a.1 a.2 ≤ d b.1 b.2

instance edgeLEDec (n : ℕ) (d : Fin n → Fin n → ℚ) : DecidableRel (edgeLE n d) :=
  fun a b => inferInstanceAs (Decidable (d a.1 a.2 ≤ d b.1 b.2))

instance edgeLETotal (n : ℕ) (d : Fin n → Fin n → ℚ) :
    IsTotal (Fin n × Fin n) (edgeLE n d) :=
  ⟨fun a b => le_total (d a.1 a.2) (d b.1 b.2)⟩

instance edgeLETrans (n : ℕ) (d : Fin n → Fin n → ℚ) :
    IsTrans (Fin n × Fin n) (edgeLE n d) :=
  ⟨fun _ _ _ hab hbc => le_trans hab hbc⟩

/-- Candidate edges sorted by weight ascending. -/
def sortEdges (n : ℕ) (d : Fin n → Fin n → ℚ) : List (Fin n × Fin n) :=
  List.insertionSort (edgeLE n d) (upperEdges n d)

/-- Union-find style merge of two component representatives: every vertex
whose representative is `a` is remapped to `b`. -/
def mergeComp (n : ℕ) (comp : Fin n → Fin n) (a b : Fin n) : Fin n → Fin n :=
  fun v => if comp v = a then b else comp v

/-- Kruskal's greedy loop: walk the (sorted) candidate list, keep an edge
exactly when its endpoints currently have distinct representatives, and merge
the two components when the edge is kept.  Returns the final representative
map together with the list of kept edges. -/
def kruskalGo (n : ℕ) : List (Fin n × Fin n) → (Fin n → Fin n) →
    (Fin n → Fin n) × List (Fin n × Fin n)
  | [], comp => (comp, [])
  | e :: es, comp =>
    if comp e.1 = comp e.2 then kruskalGo n es comp
    else
      let r := kruskalGo n es (mergeComp n comp (comp e.1) (comp e.2))
      (r.1, e :: r.2)

/-- The edges of the minimum spanning tree of the upper-triangular view of the
sub-matrix `d`, in the order Kruskal's algorithm keeps them. -/
def mstEdges (n : ℕ) (d : Fin n → Fin n → ℚ) : List (Fin n × Fin n) :=
  (kruskalGo n (sortEdges n d) id).2

/-- Entry (i, j) of the per-cluster adjacency returned by `mst`: the
spanning-tree matrix converted with `astype(int)`, so a tree edge stores its
weight truncated toward zero and every other cell stores 0. -/
def mstMat (n : ℕ) (d : Fin n → Fin n → ℚ) (i j : Fin n) : ℤ :=
  if (i, j) ∈ mstEdges n d then truncInt (d i j) else 0

/-- The pairs that appear as edges when the returned adjacency is read back by
`nx.from_pandas_adjacency` (only nonzero cells become edges). -/
def mstNonzeroPairs (n : ℕ) (d : Fin n → Fin n → ℚ) : Finset (Fin n × Fin n) :=
  Finset.univ.filter fun p => mstMat n d p.1 p.2 ≠ 0

/-- Undirected adjacency of an edge collection given by a membership
predicate on ordered pairs. -/
def adjRel (n : ℕ) (mem : Fin n × Fin n → Prop) (a b : Fin n) : Prop :=
  mem (a, b) ∨ mem (b, a)

/-- Reachability (connectivity) in the undirected graph given by a membership
predicate on ordered pairs. -/
def Reach (n : ℕ) (mem : Fin n × Fin n → Prop) : Fin n → Fin n → Prop :=
  Relation.ReflTransGen (adjRel n mem)

/-- The distance sub-matrix describes a connected graph: every two entities
are joined by a path of nonzero (upper-triangular) entries. -/
def Connected (n : ℕ) (d : Fin n → Fin n → ℚ) : Prop :=
  ∀ v w : Fin n, Reach n (fun p => p ∈ upperEdges n d) v w

/-- Executable component map of the whole candidate graph, used as a decidable
connectivity check. -/
def connComp (n : ℕ) (d : Fin n → Fin n → ℚ) : Fin n → Fin n :=
  (kruskalGo n (upperEdges n d) id).1

/-- Decidable connectivity check: all vertices share a representative. -/
def ConnectedCheck (n : ℕ) (d : Fin n → Fin n → ℚ) : Prop :=
  ∀ v w : Fin n, connComp n d v = connComp n d w

instance connectedCheckDec (n : ℕ) (d : Fin n → Fin n → ℚ) :
    Decidable (ConnectedCheck n d) :=
  inferInstanceAs (Decidable (∀ v w : Fin n, connComp n d v = connComp n d w))

/-- A spanning tree over the same sub-matrix: a set of candidate edges that
connects every two entities and has exactly n - 1 edges. -/
def SpanTree (n : ℕ) (d : Fin n → Fin n → ℚ) (T : Finset (Fin n × Fin n)) : Prop :=
  (∀ p ∈ T, p ∈ upperEdges n d) ∧
  (∀ v w : Fin n, Reach n (fun p => p ∈ T) v w) ∧
  T.card = n - 1

/-- Total weight of a set of edges under the sub-matrix `d`. -/
def setWeight (n : ℕ) (d : Fin n → Fin n → ℚ) (T : Finset (Fin n × Fin n)) : ℚ :=
  T.sum fun p => d p.1 p.2

/-- Total weight of a list of edges under the sub-matrix `d`. -/
def listWeight (n : ℕ) (d : Fin n → Fin n → ℚ) (l : List (Fin n × Fin n)) : ℚ :=
  (l.map fun p => d p.1 p.2).sum

/-- Total of the integer entries actually stored in the adjacency returned by
`mst` (the weights of the edges the adjacency contains). -/
def mstStoredWeight (n : ℕ) (d : Fin n → Fin n → ℚ) : ℚ :=
  (mstNonzeroPairs n d).sum fun p => ((mstMat n d p.1 p.2 : ℤ) : ℚ)

/-! ## Distance-matrix combination (generate_network, distance calculation)

Entities are indexed by `Fin m` in metadata order; the per-layer distance
matrices that were successfully materialized are a list of matrices over the
full entity set. -/

/-- Elementwise sum of the per-layer matrices: `np.sum(dist_mat_list, axis=0)`,
the `distance_mode='simple'` total distance matrix (and the matrix summed by
`clone_degree`). -/
def sumLayers (m : ℕ) (layers : List (Fin m → Fin m → ℚ)) : Fin m → Fin m → ℚ :=
  fun i j => (layers.map fun M => M i j).sum

/-- The `distance_mode='weighted'` combination: without explicit weights each
layer is scaled by `1/n_`; with explicit weights of the right length each layer
is scaled by its weight; a length mismatch raises `IndexError`. -/
def weightedTotal (m : ℕ) (layers : List (Fin m → Fin m → ℚ))
    (weights : Option (List ℚ)) : Except String (Fin m → Fin m → ℚ) :=
  match weights with
  | none =>
    Except.ok fun i j =>
      (layers.map fun M => (1 / (layers.length : ℚ)) * M i j).sum
  | some ws =>
    if ws.length = layers.length then
      Except.ok fun i j => ((ws.zip layers).map fun p => p.1 * p.2 i j).sum
    else
      Except.error ("Length of provided weights should be the number of layers.")

/-! ## Edge-list assembly (generate_network)

Entities carry a clone id (`clonekey` column) and a clone-group id; the MST
clusters are keyed by the group id when `constructbygroup` is set, by the
clone id otherwise, while the fallback rows are always keyed by the clone id.
Cluster member lists arise by scanning the metadata index in order. -/

/-- Cluster key used for the spanning-tree step. -/
def mstKey (m : ℕ) (clone group : Fin m → ℕ) (cbg : Bool) : Fin m → ℕ :=
  if cbg then group else clone

/-- Distinct cluster key values, in first-appearance (metadata) order. -/
def clusterKeys (m : ℕ) (key : Fin m → ℕ) : List ℕ :=
  ((List.finRange m).map key).dedup

/-- Members of one cluster, in metadata order. -/
def clusterMembers (m : ℕ) (key : Fin m → ℕ) (c : ℕ) : List (Fin m) :=
  (List.finRange m).filter fun i => decide (key i = c)

/-- Clusters retained for spanning-tree construction: at least two members. -/
def retainedKeys (m : ℕ) (key : Fin m → ℕ) : List ℕ :=
  (clusterKeys m key).filter fun c => decide (2 ≤ (clusterMembers m key c).length)

/-- Local sub-matrix of the total distance matrix restricted to a member
list. -/
def subMatrix (m : ℕ) (D : Fin m → Fin m → ℚ) (ms : List (Fin m)) :
    Fin ms.length → Fin ms.length → ℚ :=
  fun a b => D (ms.get a) (ms.get b)

/-- Edge rows contributed by one retained cluster: the nonzero cells of the
integer adjacency returned by `mst`, read row-major by
`nx.from_pandas_adjacency` and flattened by `nx.to_pandas_edgelist` into
(source, target, weight) rows, with the stored integer as weight. -/
def clusterMstRows (m : ℕ) (D : Fin m → Fin m → ℚ) (ms : List (Fin m)) :
    List (Fin m × Fin m × ℚ) :=
  (((List.finRange ms.length) ×ˢ (List.finRange ms.length)).filterMap fun p =>
    if mstMat ms.length (subMatrix m D ms) p.1 p.2 ≠ 0 then
      some (ms.get p.1, ms.get p.2, ((mstMat ms.length (subMatrix m D ms) p.1 p.2 : ℤ) : ℚ))
    else none)

/-- All MST-derived edge rows, over the retained clusters. -/
def mstRows (m : ℕ) (clone group : Fin m → ℕ) (cbg : Bool)
    (D : Fin m → Fin m → ℚ) : List (Fin m × Fin m × ℚ) :=
  (retainedKeys m (mstKey m clone group cbg)).flatMap fun c =>
    clusterMstRows m D (clusterMembers m (mstKey m clone group cbg) c)

/-- Fallback rows of one clone cluster: the strictly upper triangular ones
matrix (`np.tril(nan) + 1` then `fillna(0)` leaves 1 exactly above the
diagonal), flattened to rows with placeholder weight 1. -/
def clusterFallbackRows (m : ℕ) (ms : List (Fin m)) : List (Fin m × Fin m × ℚ) :=
  (((List.finRange ms.length) ×ˢ (List.finRange ms.length)).filterMap fun p =>
    if p.1 < p.2 then some (ms.get p.1, ms.get p.2, (1 : ℚ)) else none)

/-- All fallback rows, over every clone cluster (singletons included; a
singleton contributes no row). -/
def fallbackRows (m : ℕ) (clone : Fin m → ℕ) : List (Fin m × Fin m × ℚ) :=
  (clusterKeys m clone).flatMap fun c => clusterFallbackRows m (clusterMembers m clone c)

/-- Ordered (source, target) key of a row, the index used by `combine_first`. -/
def rowKey (m : ℕ) (r : Fin m × Fin m × ℚ) : Fin m × Fin m := (r.1, r.2.1)

/-- The `combine_first` merge keyed on the ordered (source, target) index:
the MST rows win, and a fallback row survives only when no MST row carries its
key. -/
def mergedRows (m : ℕ) (clone group : Fin m → ℕ) (cbg : Bool)
    (D : Fin m → Fin m → ℚ) : List (Fin m × Fin m × ℚ) :=
  mstRows m clone group cbg D ++
    ((fallbackRows m clone).filter fun r =>
      !((mstRows m clone group cbg D).any fun q => rowKey m q = rowKey m r))

/-- The merged edge list of `generate_network`: when no cluster is retained
the `pd.concat` of zero frames raises and the bare `except` substitutes an
empty (source, target, weight) table; otherwise the rows are merged by
ordered (source, target) key with the MST row winning, and every row's weight
is then overwritten with the corresponding entry of the total distance
matrix. -/
def edgeListFinal (m : ℕ) (clone group : Fin m → ℕ) (cbg : Bool)
    (D : Fin m → Fin m → ℚ) : List (Fin m × Fin m × ℚ) :=
  if retainedKeys m (mstKey m clone group cbg) = [] then []
  else (mergedRows m clone group cbg D).map fun r => (r.1, r.2.1, D r.1 r.2.1)

/-! ## clone_degree

The source sums the sparse per-layer distance matrices, re-encodes the total as
CSR, and then calls `G.add_weighted_edges_from(zip(index, index, A.data))`:
the metadata index zipped with itself and with the CSR data array (the nonzero
entries of the total matrix in row-major order), truncated to the shorter of
the two.  Every resulting edge is a self-loop.  The weighted degree is then
taken from networkx, which counts a self-loop's weight twice, and entities that
received no edge are absent from the graph (their metadata cell becomes NaN,
modelled as `none`). -/

/-- Nonzero entries of a matrix in row-major order: the CSR `data` array. -/
def csrData (m : ℕ) (D : Fin m → Fin m → ℚ) : List ℚ :=
  ((((List.finRange m) ×ˢ (List.finRange m)).filter fun p =>
    decide (D p.1 p.2 ≠ 0)).map fun p => D p.1 p.2)

/-- The weighted edges `clone_degree` adds: `zip(index, index, A.data)`. -/
def cloneDegreeEdges (m : ℕ) (layers : List (Fin m → Fin m → ℚ)) :
    List (Fin m × Fin m × ℚ) :=
  ((List.finRange m).zip (csrData m (sumLayers m layers))).map fun p => (p.1, p.1, p.2)

/-- Weighted degree in a networkx graph given by a weighted edge list without
duplicate node pairs: incident edge weights summed, a self-loop counted
twice. -/
def nxWeightedDegree (m : ℕ) (edges : List (Fin m × Fin m × ℚ)) (u : Fin m) : ℚ :=
  (edges.map fun e =>
    if e.1 = u ∧ e.2.1 = u then 2 * e.2.2
    else if e.1 = u ∨ e.2.1 = u then e.2.2 else 0).sum

/-- The `clone_degree` value assigned to each entity: its networkx weighted
degree when the entity received an edge, `none` (NaN) otherwise. -/
def cloneDegree (m : ℕ) (layers : List (Fin m → Fin m → ℚ)) (u : Fin m) : Option ℚ :=
  if (cloneDegreeEdges m layers).any fun e => decide (e.1 = u ∨ e.2.1 = u) then
    some (nxWeightedDegree m (cloneDegreeEdges m layers) u)
  else none

/-- Weighted degree as the specification describes it: the sum of the weights
of the entity's incident edges in the graph whose weighted adjacency is the
elementwise sum of the per-layer distance matrices, the zero self-distance
excluded.  This definition follows the wording of the specification and is
compared against `cloneDegree`, the embedding of the source. -/
def weightedDegreeSpec (m : ℕ) (layers : List (Fin m → Fin m → ℚ)) (u : Fin m) : ℚ :=
  (((List.finRange m).filter fun j => decide (j ≠ u)).map fun j =>
    sumLayers m layers u j).sum

/-! ## Fruchterman-Reingold layout (dense and sparse routines)

Positions are 2-dimensional (the repository always lays out in dimension 2).
A position array is a map `Fin n → ℚ × ℚ`.  Random initial positions are drawn
from an explicit stream `ℕ → ℚ` in row-major order, modelling
`seed.rand(nnodes, dim)`. -/

/-- Componentwise vector addition. -/
def vadd (a b : ℚ × ℚ) : ℚ × ℚ := (a.1 + b.1, a.2 + b.2)

/-- Componentwise vector subtraction. -/
def vsub (a b : ℚ × ℚ) : ℚ × ℚ := (a.1 - b.1, a.2 - b.2)

/-- Scalar multiplication of a vector. -/
def vsmul (c : ℚ) (a : ℚ × ℚ) : ℚ × ℚ := (c * a.1, c * a.2)

/-- Componentwise division of a vector by a scalar. -/
def vdivs (a : ℚ × ℚ) (c : ℚ) : ℚ × ℚ := (a.1 / c, a.2 / c)

/-- Euclidean norm of a 2-vector, with the square root modelled by
`ratSqrt`. -/
def pnorm (a : ℚ × ℚ) : ℚ := ratSqrt (a.1 * a.1 + a.2 * a.2)

/-- Sum of a list of 2-vectors. -/
def vlistSum (l : List (ℚ × ℚ)) : ℚ × ℚ := l.foldr vadd (0, 0)

/-- Maximum of a list of rationals (the list is nonempty in every use). -/
def listMax (l : List ℚ) : ℚ := l.foldl max (l.headD 0)

/-- Minimum of a list of rationals (the list is nonempty in every use). -/
def listMin (l : List ℚ) : ℚ := l.foldl min (l.headD 0)

/-- Initial random positions: `seed.rand(nnodes, dim)` drawn row-major from an
explicit stream. -/
def frInitPos (n : ℕ) (stream : ℕ → ℚ) : Fin n → ℚ × ℚ :=
  fun i => (stream (2 * i.val), stream (2 * i.val + 1))

/-- The initial temperature: 0.1 times the larger of the x-extent and the
y-extent of the initial layout. -/
def frTemp (n : ℕ) (pos : Fin n → ℚ × ℚ) : ℚ :=
  let xs := (List.finRange n).map fun i => (pos i).1
  let ys := (List.finRange n).map fun i => (pos i).2
  max (listMax xs - listMin xs) (listMax ys - listMin ys) * (1 / 10)

/-- Displacement of node `i` in the dense routine: for each pair the distance
is clamped from below (`np.clip(distance, clamp, None)`), the repulsive term
`k^2/distance^2` minus the attractive term `A[i,j]*distance/k` scales the
position delta, the contributions are summed (`np.einsum`), and the centering
term `pos/(k*sqrt(n))` is subtracted. -/
def denseDisp (n : ℕ) (A : Fin n → Fin n → ℚ) (k clamp : ℚ)
    (pos : Fin n → ℚ × ℚ) (i : Fin n) : ℚ × ℚ :=
  let force := vlistSum ((List.finRange n).map fun j =>
    let delta := vsub (pos i) (pos j)
    let dist := max (pnorm delta) clamp
    vsmul (k * k / (dist * dist) - A i j * dist / k) delta)
  vsub force (vdivs (pos i) (k * ratSqrt (n : ℚ)))

/-- Length normalization of the dense and sparse routines: displacement norms
below 0.01 are replaced by 0.1. -/
def lengthFloor (l : ℚ) : ℚ := if l < 1 / 100 then 1 / 10 else l

/-- Position update of one dense iteration: displacements are scaled to length
`t` (with the floored norm), and fixed nodes are zeroed
(`delta_pos[fixed] = 0.0`). -/
def denseDeltaPos (n : ℕ) (A : Fin n → Fin n → ℚ) (k clamp : ℚ)
    (fixed : Finset (Fin n)) (t : ℚ) (pos : Fin n → ℚ × ℚ) (i : Fin n) : ℚ × ℚ :=
  if i ∈ fixed then (0, 0)
  else
    let disp := denseDisp n A k clamp pos i
    vsmul (t / lengthFloor (pnorm disp)) disp

/-- Frobenius norm of a position-update array divided by the node count:
`np.linalg.norm(delta_pos) / nnodes`, the early-stopping error measure. -/
def frErr (n : ℕ) (dp : Fin n → ℚ × ℚ) : ℚ :=
  ratSqrt (((List.finRange n).map fun i =>
    (dp i).1 * (dp i).1 + (dp i).2 * (dp i).2).sum) / (n : ℚ)

/-- Iteration loop of the dense routine `_fruchterman_reingold`: update
positions, cool the temperature linearly, stop early when the error drops
below the threshold. -/
def denseLoop (n : ℕ) (A : Fin n → Fin n → ℚ) (k clamp : ℚ)
    (fixed : Finset (Fin n)) (threshold dt : ℚ) :
    ℕ → ℚ → (Fin n → ℚ × ℚ) → (Fin n → ℚ × ℚ)
  | 0, _, pos => pos
  | iters + 1, t, pos =>
    let dp := fun i => denseDeltaPos n A k clamp fixed t pos i
    let pos2 := fun i => vadd (pos i) (dp i)
    if frErr n dp < threshold then pos2
    else denseLoop n A k clamp fixed threshold dt iters (t - dt) pos2

/-- The dense routine `_fruchterman_reingold` with the minimum-distance clamp
as a parameter; the source hard-codes clamp 0.001 on this path. -/
def frDenseC (clamp : ℚ) (n : ℕ) (A : Fin n → Fin n → ℚ) (kOpt : Option ℚ)
    (posOpt : Option (Fin n → ℚ × ℚ)) (fixed : Finset (Fin n))
    (iterations : ℕ) (threshold : ℚ) (stream : ℕ → ℚ) : Fin n → ℚ × ℚ :=
  let pos0 := match posOpt with
    | some p => p
    | none => frInitPos n stream
  let k := match kOpt with
    | some kv => kv
    | none => ratSqrt (1 / (n : ℚ))
  let t := frTemp n pos0
  denseLoop n A k clamp fixed threshold (t / ((iterations : ℚ) + 1)) iterations t pos0

/-- The dense routine with its hard-coded clamp
(`np.clip(distance, 0.001, None)`). -/
def frDense (n : ℕ) (A : Fin n → Fin n → ℚ) (kOpt : Option ℚ)
    (posOpt : Option (Fin n → ℚ × ℚ)) (fixed : Finset (Fin n))
    (iterations : ℕ) (threshold : ℚ) (stream : ℕ → ℚ) : Fin n → ℚ × ℚ :=
  frDenseC (1 / 1000) n A kOpt posOpt fixed iterations threshold stream

/-- Row displacement of the sparse routine: rows of fixed nodes are skipped
(`continue`), every other row sums the per-column force contributions with the
distance clamped by `np.where(distance < clamp, clamp, distance)`. -/
def sparseRowDisp (n : ℕ) (A : Fin n → Fin n → ℚ) (k clamp : ℚ)
    (fixed : Finset (Fin n)) (pos : Fin n → ℚ × ℚ) (i : Fin n) : ℚ × ℚ :=
  if i ∈ fixed then (0, 0)
  else
    vlistSum ((List.finRange n).map fun j =>
      let delta := vsub (pos i) (pos j)
      let dist0 := pnorm delta
      let dist := if dist0 < clamp then clamp else dist0
      vsmul (k * k / (dist * dist) - A i j * dist / k) delta)

/-- Displacement of the sparse routine after the row loop: the centering term
is subtracted from every column, fixed ones included. -/
def sparseDisp (n : ℕ) (A : Fin n → Fin n → ℚ) (k clamp : ℚ)
    (fixed : Finset (Fin n)) (pos : Fin n → ℚ × ℚ) (i : Fin n) : ℚ × ℚ :=
  vsub (sparseRowDisp n A k clamp fixed pos i) (vdivs (pos i) (k * ratSqrt (n : ℚ)))

/-- Position update of one sparse iteration: unlike the dense routine, the
update of a fixed node is not zeroed. -/
def sparseDeltaPos (n : ℕ) (A : Fin n → Fin n → ℚ) (k clamp : ℚ)
    (fixed : Finset (Fin n)) (t : ℚ) (pos : Fin n → ℚ × ℚ) (i : Fin n) : ℚ × ℚ :=
  let disp := sparseDisp n A k clamp fixed pos i
  vsmul (t / lengthFloor (pnorm disp)) disp

/-- Iteration loop of the sparse routine `_sparse_fruchterman_reingold`. -/
def sparseLoop (n : ℕ) (A : Fin n → Fin n → ℚ) (k clamp : ℚ)
    (fixed : Finset (Fin n)) (threshold dt : ℚ) :
    ℕ → ℚ → (Fin n → ℚ × ℚ) → (Fin n → ℚ × ℚ)
  | 0, _, pos => pos
  | iters + 1, t, pos =>
    let dp := fun i => sparseDeltaPos n A k clamp fixed t pos i
    let pos2 := fun i => vadd (pos i) (dp i)
    if frErr n dp < threshold then pos2
    else sparseLoop n A k clamp fixed threshold dt iters (t - dt) pos2

/-- The sparse routine `_sparse_fruchterman_reingold` with the
minimum-distance clamp as a parameter; the source hard-codes clamp 0.01 on
this path. -/
def frSparseC (clamp : ℚ) (n : ℕ) (A : Fin n → Fin n → ℚ) (kOpt : Option ℚ)
    (posOpt : Option (Fin n → ℚ × ℚ)) (fixed : Finset (Fin n))
    (iterations : ℕ) (threshold : ℚ) (stream : ℕ → ℚ) : Fin n → ℚ × ℚ :=
  let pos0 := match posOpt with
    | some p => p
    | none => frInitPos n stream
  let k := match kOpt with
    | some kv => kv
    | none => ratSqrt (1 / (n : ℚ))
  let t := frTemp n pos0
  sparseLoop n A k clamp fixed threshold (t / ((iterations : ℚ) + 1)) iterations t pos0

/-- The sparse routine with its hard-coded clamp
(`np.where(distance < 0.01, 0.01, distance)`). -/
def frSparse (n : ℕ) (A : Fin n → Fin n → ℚ) (kOpt : Option ℚ)
    (posOpt : Option (Fin n → ℚ × ℚ)) (fixed : Finset (Fin n))
    (iterations : ℕ) (threshold : ℚ) (stream : ℕ → ℚ) : Fin n → ℚ × ℚ :=
  frSparseC (1 / 100) n A kOpt posOpt fixed iterations threshold stream

/-- Resolution of the `seed` argument by networkx's `random_state` decorator:
an explicit seed is used as given, while `seed=None` resolves to the ambient
global numpy random state (modelled as an explicit stream). -/
def randomStateResolve (seedArg : Option (ℕ → ℚ)) (globalState : ℕ → ℚ) : ℕ → ℚ :=
  seedArg.getD globalState

/-- The seed argument `generate_layout` passes to the layout entry point: it
passes none (`_fruchterman_reingold_layout(G, weight = weight)` leaves the
default `seed=None`). -/
def generateLayoutSeedArg : Option (ℕ → ℚ) := none

/-- Per-axis rescaling `_rescale_layout` with scale 1: subtract the per-axis
mean, then divide all coordinates by the largest absolute coordinate across
both axes when it is positive. -/
def rescaleLayout (n : ℕ) (pos : Fin n → ℚ × ℚ) : Fin n → ℚ × ℚ :=
  let mx := ((List.finRange n).map fun i => (pos i).1).sum / (n : ℚ)
  let my := ((List.finRange n).map fun i => (pos i).2).sum / (n : ℚ)
  let centered := fun i => ((pos i).1 - mx, (pos i).2 - my)
  let lim := max (listMax ((List.finRange n).map fun i => |(centered i).1|))
    (listMax ((List.finRange n).map fun i => |(centered i).2|))
  if 0 < lim then fun i => ((centered i).1 * (1 / lim), (centered i).2 * (1 / lim))
  else centered

/-! ## generate_layout

The graph is a networkx `Graph` over the supplied vertex list together with
the weighted edge rows; node ids are modelled as natural numbers.  Adding a
weighted edge also adds its endpoints as nodes, repeated (unordered) node
pairs keep the last written weight, and the degree of a node counts its
distinct neighbours with a self-loop counted twice. -/

/-- Node list of the networkx graph: the vertex list plus every edge
endpoint, deduplicated. -/
def nxNodes (V : List ℕ) (E : List (ℕ × ℕ × ℚ)) : List ℕ :=
  (V ++ E.flatMap fun e => [e.1, e.2.1]).dedup

/-- Adjacency test of the (undirected) networkx graph built from the edge
rows. -/
def nxAdjB (E : List (ℕ × ℕ × ℚ)) (u v : ℕ) : Bool :=
  E.any fun e => decide ((e.1 = u ∧ e.2.1 = v) ∨ (e.1 = v ∧ e.2.1 = u))

/-- Degree of a node in the networkx graph: number of distinct neighbours,
a self-loop counted twice. -/
def nxDegree (V : List ℕ) (E : List (ℕ × ℕ × ℚ)) (u : ℕ) : ℕ :=
  ((nxNodes V E).filter fun v => decide (v ≠ u) && nxAdjB E u v).length +
    (if nxAdjB E u u then 2 else 0)

/-- The node list of the trimmed copy of the graph: with `min_size == 2` the
isolates of the full graph are removed; with `min_size > 2` the nodes whose
degree exceeds `min_size` are removed; no other branch removes nodes. -/
def trimmedNodes (V : List ℕ) (E : List (ℕ × ℕ × ℚ)) (minSize : ℕ) : List ℕ :=
  if minSize = 2 then (nxNodes V E).filter fun v => decide (nxDegree V E v ≠ 0)
  else if 2 < minSize then
    (nxNodes V E).filter fun v => decide (¬ minSize < nxDegree V E v)
  else nxNodes V E

/-- Undirected edge pairs of the graph induced on a node list (each unordered
pair listed once). -/
def edgePairsOf (nodes : List ℕ) (E : List (ℕ × ℕ × ℚ)) : List (ℕ × ℕ) :=
  nodes.flatMap fun u =>
    nodes.filterMap fun v => if u ≤ v ∧ nxAdjB E u v = true then some (u, v) else none

/-- Weight attribute of an (unordered) node pair: the last written row wins,
as in networkx. -/
def nxWeightVal (E : List (ℕ × ℕ × ℚ)) (u v : ℕ) : ℚ :=
  ((E.filter fun e =>
    decide ((e.1 = u ∧ e.2.1 = v) ∨ (e.1 = v ∧ e.2.1 = u))).map fun e => e.2.2).getLastD 0

/-- The layout entry point `_fruchterman_reingold_layout` on the graph induced
by a node list: empty and single-node graphs return without iterating, graphs
below 500 nodes take the dense routine, larger graphs the sparse routine
(50 iterations, threshold 1e-4, no supplied positions, no fixed nodes,
`seed=None` resolved to the ambient stream), followed by `_rescale_layout`. -/
def frLayoutModel (nodes : List ℕ) (E : List (ℕ × ℕ × ℚ)) (g : ℕ → ℚ) :
    List (ℕ × ℚ × ℚ) :=
  match nodes with
  | [] => []
  | [u] => [(u, 0, 0)]
  | x =>
    let n := x.length
    let A : Fin n → Fin n → ℚ := fun i j => nxWeightVal E (x.get i) (x.get j)
    let pos :=
      if n < 500 then
        frDense n A none none ∅ 50 (1 / 10000) (randomStateResolve generateLayoutSeedArg g)
      else
        frSparse n A none none ∅ 50 (1 / 10000) (randomStateResolve generateLayoutSeedArg g)
    let pos2 := rescaleLayout n pos
    (List.finRange n).map fun i => (x.get i, pos2 i)

/-- The `generate_layout` function: builds the full and trimmed graphs, then
unpacks `zip(*nx.get_edge_attributes(G_, 'weight').items())`, which raises
when the trimmed graph has no edges; otherwise both layouts are computed and
the two graphs and two layouts are returned. -/
def generateLayout (V : List ℕ) (E : List (ℕ × ℕ × ℚ)) (minSize : ℕ) (g : ℕ → ℚ) :
    Except String
      ((List ℕ × List (ℕ × ℕ)) × (List ℕ × List (ℕ × ℕ)) ×
        List (ℕ × ℚ × ℚ) × List (ℕ × ℚ × ℚ)) :=
  let nodes := nxNodes V E
  let tnodes := trimmedNodes V E minSize
  let tedges := edgePairsOf tnodes E
  if tedges = [] then Except.error ("not enough values to unpack")
  else
    Except.ok ((nodes, edgePairsOf nodes E), (tnodes, tedges),
      frLayoutModel nodes E g, frLayoutModel tnodes E g)

/-! ## Concrete instances used by the witnesses and counterexamples below -/

/-- A 2-entity sub-matrix with a single unit distance. -/
def dEx2 : Fin 2 → Fin 2 → ℚ := fun i j => if i = j then 0 else 1

/-- A 2-entity sub-matrix whose single distance is strictly between 0 and 1,
as can arise from the weighted combination mode. -/
def dHalf : Fin 2 → Fin 2 → ℚ := fun i j => if i = j then 0 else 1 / 2

/-- One distance layer over two entities at distance 1. -/
def cdLayer : Fin 2 → Fin 2 → ℚ := fun i j => if i = j then 0 else 1

/-- An explicit 4-node position array: all nodes on the x-axis, nodes 0 and 1
at distance 1/200 (below the sparse clamp 0.01 but above the dense clamp
0.001), node 2 at distance 1/100 from node 1, node 4 far away. -/
def pos4 : Fin 4 → ℚ × ℚ := fun i =>
  if i = 0 then (0, 0)
  else if i = 1 then (1 / 200, 0)
  else if i = 2 then (3 / 200, 0)
  else (2, 0)

/-- The edgeless adjacency on 4 nodes. -/
def A4 : Fin 4 → Fin 4 → ℚ := fun _ _ => 0

/-- An ambient global random stream whose draws place the 4 nodes of `pos4`
on the x-axis. -/
def gStream1 : ℕ → ℚ := fun t =>
  if t = 0 then 0
  else if t = 2 then 1 / 200
  else if t = 4 then 3 / 200
  else if t = 6 then 2 else 0

/-- A second ambient global random stream, drawing all zeros. -/
def gStream2 : ℕ → ℚ := fun _ => 0

/-- An explicit seed stream for the reproducibility witness. -/
def zeroStream : ℕ → ℚ := fun _ => 0

/-- Two entities in distinct singleton clusters. -/
def clSingle : Fin 2 → ℕ := fun i => i.val

/-- Two entities sharing one cluster. -/
def clPair : Fin 2 → ℕ := fun _ => 7

/-- A concrete vertex list for the layout witnesses. -/
def V0 : List ℕ := [0, 1, 2]

/-- A concrete edge list joining vertices 0 and 1. -/
def E0 : List (ℕ × ℕ × ℚ) := [(0, 1, 1)]

/-! ## Generic helper lemmas -/

theorem truncInt_eq_floor (q : ℚ) (h : 0 ≤ q) : truncInt q = ⌊q⌋ := by
  unfold truncInt
  rw [Int.tdiv_eq_ediv (Rat.num_nonneg.mpr h) (by positivity)]
  exact (Rat.floor_def).symm

theorem zip_mul_sum_eq_indexed {α : Type} (ws : List ℚ) (l : List α) (f : α → ℚ)
    (h : ws.length = l.length) :
    ((ws.zip l).map fun p => p.1 * f p.2).sum =
      Finset.univ.sum fun t : Fin l.length => ws.getD t.val 0 * f (l.get t) := by
  induction l generalizing ws with
  | nil => simp
  | cons a tl ih =>
    cases ws with
    | nil => simp at h
    | cons w wt =>
      have hlen : wt.length = tl.length := by simpa using h
      simp only [List.zip_cons_cons, List.map_cons, List.sum_cons, List.length_cons,
        Fin.sum_univ_succ, Fin.val_zero, List.getD_cons_zero, Fin.val_succ,
        List.getD_cons_succ, List.get_cons_zero, List.get_cons_succ]
      rw [ih wt hlen]
      rfl

/-! ## Reachability lemmas for the Kruskal development -/

theorem adjRel_symmetric (n : ℕ) (mem : Fin n × Fin n → Prop) : Symmetric (adjRel n mem) :=
  fun _ _ h => Or.symm h

theorem reach_symm (n : ℕ) (mem : Fin n × Fin n → Prop) {a b : Fin n}
    (h : Reach n mem a b) : Reach n mem b a :=
  Relation.ReflTransGen.symmetric (adjRel_symmetric n mem) h

theorem reach_mono (n : ℕ) {mem1 mem2 : Fin n × Fin n → Prop}
    (hsub : ∀ p, mem1 p → mem2 p) {a b : Fin n} (h : Reach n mem1 a b) :
    Reach n mem2 a b :=
  Relation.ReflTransGen.mono (fun _ _ hxy => hxy.imp (hsub _) (hsub _)) h

theorem reach_congr (n : ℕ) {mem1 mem2 : Fin n × Fin n → Prop}
    (hiff : ∀ p, mem1 p ↔ mem2 p) (a b : Fin n) :
    Reach n mem1 a b ↔ Reach n mem2 a b :=
  ⟨reach_mono n fun p => (hiff p).mp, reach_mono n fun p => (hiff p).mpr⟩

theorem reach_empty (n : ℕ) {mem : Fin n × Fin n → Prop} (hno : ∀ p, ¬ mem p)
    {a b : Fin n} (h : Reach n mem a b) : a = b := by
  induction h with
  | refl => rfl
  | tail _ hstep _ =>
    cases hstep with
    | inl hp => exact absurd hp (hno _)
    | inr hp => exact absurd hp (hno _)

theorem reach_cons (n : ℕ) (e : Fin n × Fin n) (C : List (Fin n × Fin n)) (a b : Fin n) :
    Reach n (fun p => p ∈ e :: C) a b ↔
      Reach n (fun p => p ∈ C) a b ∨
      (Reach n (fun p => p ∈ C) a e.1 ∧ Reach n (fun p => p ∈ C) e.2 b) ∨
      (Reach n (fun p => p ∈ C) a e.2 ∧ Reach n (fun p => p ∈ C) e.1 b) := by
  constructor
  · intro h
    induction h with
    | refl => exact Or.inl Relation.ReflTransGen.refl
    | @tail c b2 hac hstep ih =>
      have hstep2 : ((c, b2) = e ∨ (c, b2) ∈ C) ∨ ((b2, c) = e ∨ (b2, c) ∈ C) := by
        cases hstep with
        | inl hp => exact Or.inl (List.mem_cons.mp hp)
        | inr hp => exact Or.inr (List.mem_cons.mp hp)
      rcases hstep2 with (hpe | hpC) | (hpe | hpC)
      · -- the step uses e in forward orientation: c = e.1, b2 = e.2
        obtain ⟨hc, hb⟩ : c = e.1 ∧ b2 = e.2 :=
          ⟨congrArg Prod.fst hpe, congrArg Prod.snd hpe⟩
        subst hc
        subst hb
        rcases ih with hr | ⟨hr1, _⟩ | ⟨hr1, _⟩
        · exact Or.inr (Or.inl ⟨hr, Relation.ReflTransGen.refl⟩)
        · exact Or.inr (Or.inl ⟨hr1, Relation.ReflTransGen.refl⟩)
        · exact Or.inl hr1
      · rcases ih with hr | ⟨hr1, hr2⟩ | ⟨hr1, hr2⟩
        · exact Or.inl (hr.tail (Or.inl hpC))
        · exact Or.inr (Or.inl ⟨hr1, hr2.tail (Or.inl hpC)⟩)
        · exact Or.inr (Or.inr ⟨hr1, hr2.tail (Or.inl hpC)⟩)
      · -- the step uses e in reverse orientation: b2 = e.1, c = e.2
        obtain ⟨hb, hc⟩ : b2 = e.1 ∧ c = e.2 := ⟨congrArg Prod.fst hpe, congrArg Prod.snd hpe⟩
        subst hb
        subst hc
        rcases ih with hr | ⟨hr1, _⟩ | ⟨hr1, _⟩
        · exact Or.inr (Or.inr ⟨hr, Relation.ReflTransGen.refl⟩)
        · exact Or.inl hr1
        · exact Or.inr (Or.inr ⟨hr1, Relation.ReflTransGen.refl⟩)
      · rcases ih with hr | ⟨hr1, hr2⟩ | ⟨hr1, hr2⟩
        · exact Or.inl (hr.tail (Or.inr hpC))
        · exact Or.inr (Or.inl ⟨hr1, hr2.tail (Or.inr hpC)⟩)
        · exact Or.inr (Or.inr ⟨hr1, hr2.tail (Or.inr hpC)⟩)
  · have hsub : ∀ p, p ∈ C → p ∈ e :: C := fun p hp => List.mem_cons_of_mem e hp
    have hestep : Reach n (fun p => p ∈ e :: C) e.1 e.2 :=
      Relation.ReflTransGen.single (Or.inl (List.mem_cons_self e C))
    rintro (hr | ⟨hr1, hr2⟩ | ⟨hr1, hr2⟩)
    · exact reach_mono n hsub hr
    · exact ((reach_mono n hsub hr1).trans hestep).trans (reach_mono n hsub hr2)
    · exact ((reach_mono n hsub hr1).trans (reach_symm n _ hestep)).trans
        (reach_mono n hsub hr2)

/-! ## Structural lemmas about the Kruskal loop -/

theorem mergeComp_congr (n : ℕ) (comp : Fin n → Fin n) (a b : Fin n) {v w : Fin n}
    (h : comp v = comp w) : mergeComp n comp a b v = mergeComp n comp a b w := by
  unfold mergeComp
  rw [h]

theorem mergeComp_ends (n : ℕ) (comp : Fin n → Fin n) (e : Fin n × Fin n)
    (hne : comp e.1 ≠ comp e.2) :
    mergeComp n comp (comp e.1) (comp e.2) e.1 = mergeComp n comp (comp e.1) (comp e.2) e.2 := by
  unfold mergeComp
  rw [if_pos rfl, if_neg (Ne.symm hne)]

theorem comp_merge_iff (n : ℕ) (comp : Fin n → Fin n) (C : List (Fin n × Fin n))
    (Hc : ∀ v w, comp v = comp w ↔ Reach n (fun p => p ∈ C) v w)
    (e : Fin n × Fin n) (hne : comp e.1 ≠ comp e.2) (v w : Fin n) :
    mergeComp n comp (comp e.1) (comp e.2) v = mergeComp n comp (comp e.1) (comp e.2) w ↔
      Reach n (fun p => p ∈ e :: C) v w := by
  rw [reach_cons]
  unfold mergeComp
  by_cases hv : comp v = comp e.1 <;> by_cases hw : comp w = comp e.1
  · rw [if_pos hv, if_pos hw]
    constructor
    · intro _
      exact Or.inl (((Hc v e.1).mp hv).trans (reach_symm n _ ((Hc w e.1).mp hw)))
    · intro _
      rfl
  · rw [if_pos hv, if_neg hw]
    constructor
    · intro h
      exact Or.inr (Or.inl ⟨(Hc v e.1).mp hv, (Hc e.2 w).mp h⟩)
    · rintro (hr | ⟨_, hr2⟩ | ⟨hr1, _⟩)
      · exact absurd (((Hc v w).mpr hr).symm.trans hv) hw
      · exact (Hc e.2 w).mpr hr2
      · exact absurd (hv.symm.trans ((Hc v e.2).mpr hr1)) hne
  · rw [if_neg hv, if_pos hw]
    constructor
    · intro h
      exact Or.inr (Or.inr ⟨(Hc v e.2).mp h, (Hc e.1 w).mp hw.symm⟩)
    · rintro (hr | ⟨hr1, _⟩ | ⟨hr1, _⟩)
      · exact absurd (((Hc v w).mpr hr).trans hw) hv
      · exact absurd ((Hc v e.1).mpr hr1) hv
      · exact (Hc v e.2).mpr hr1
  · rw [if_neg hv, if_neg hw]
    constructor
    · intro h
      exact Or.inl ((Hc v w).mp h)
    · rintro (hr | ⟨hr1, _⟩ | ⟨_, hr2⟩)
      · exact (Hc v w).mpr hr
      · exact absurd ((Hc v e.1).mpr hr1) hv
      · exact absurd ((Hc e.1 w).mpr hr2).symm hw

theorem kruskal_sublist (n : ℕ) (es : List (Fin n × Fin n)) (comp : Fin n → Fin n) :
    (kruskalGo n es comp).2.Sublist es := by
  induction es generalizing comp with
  | nil => simp [kruskalGo]
  | cons e es ih =>
    by_cases h : comp e.1 = comp e.2
    · simp only [kruskalGo, if_pos h]
      exact (ih comp).cons e
    · simp only [kruskalGo, if_neg h]
      exact (ih (mergeComp n comp (comp e.1) (comp e.2))).cons₂ e

theorem kruskal_comp_congr (n : ℕ) (es : List (Fin n × Fin n)) (comp : Fin n → Fin n)
    {v w : Fin n} (h : comp v = comp w) :
    (kruskalGo n es comp).1 v = (kruskalGo n es comp).1 w := by
  induction es generalizing comp with
  | nil => exact h
  | cons e es ih =>
    by_cases he : comp e.1 = comp e.2
    · simp only [kruskalGo, if_pos he]
      exact ih comp h
    · simp only [kruskalGo, if_neg he]
      exact ih (mergeComp n comp (comp e.1) (comp e.2)) (mergeComp_congr n comp _ _ h)

theorem kruskal_processed (n : ℕ) (es : List (Fin n × Fin n)) (comp : Fin n → Fin n) :
    ∀ g ∈ es, (kruskalGo n es comp).1 g.1 = (kruskalGo n es comp).1 g.2 := by
  induction es generalizing comp with
  | nil => intro g hg; exact absurd hg (List.not_mem_nil g)
  | cons e es ih =>
    intro g hg
    by_cases he : comp e.1 = comp e.2
    · simp only [kruskalGo, if_pos he]
      rcases List.mem_cons.mp hg with rfl | hgs
      · exact kruskal_comp_congr n es comp he
      · exact ih comp g hgs
    · simp only [kruskalGo, if_neg he]
      rcases List.mem_cons.mp hg with rfl | hgs
      · exact kruskal_comp_congr n es _ (mergeComp_ends n comp g he)
      · exact ih _ g hgs

theorem kruskal_Hc (n : ℕ) (es : List (Fin n × Fin n)) (comp : Fin n → Fin n)
    (C : List (Fin n × Fin n))
    (Hc : ∀ v w, comp v = comp w ↔ Reach n (fun p => p ∈ C) v w) :
    ∀ v w, (kruskalGo n es comp).1 v = (kruskalGo n es comp).1 w ↔
      Reach n (fun p => p ∈ C ++ (kruskalGo n es comp).2) v w := by
  induction es generalizing comp C with
  | nil =>
    intro v w
    simp only [kruskalGo, List.append_nil]
    exact Hc v w
  | cons e es ih =>
    intro v w
    by_cases he : comp e.1 = comp e.2
    · simp only [kruskalGo, if_pos he]
      exact ih comp C Hc v w
    · simp only [kruskalGo, if_neg he]
      have Hc2 := comp_merge_iff n comp C Hc e he
      have := ih (mergeComp n comp (comp e.1) (comp e.2)) (e :: C) Hc2 v w
      rw [this]
      refine reach_congr n ?_ v w
      intro p
      simp only [List.mem_append, List.mem_cons]
      tauto

theorem image_mergeComp (n : ℕ) (comp : Fin n → Fin n) (e : Fin n × Fin n)
    (hne : comp e.1 ≠ comp e.2) :
    Finset.univ.image (mergeComp n comp (comp e.1) (comp e.2)) =
      (Finset.univ.image comp).erase (comp e.1) := by
  ext c
  simp only [Finset.mem_image, Finset.mem_erase, Finset.mem_univ, true_and]
  constructor
  · rintro ⟨v, hv⟩
    unfold mergeComp at hv
    by_cases hvc : comp v = comp e.1
    · rw [if_pos hvc] at hv
      exact ⟨hv ▸ (Ne.symm hne), ⟨e.2, hv⟩⟩
    · rw [if_neg hvc] at hv
      exact ⟨hv ▸ hvc, ⟨v, hv⟩⟩
  · rintro ⟨hc, v, hv⟩
    refine ⟨v, ?_⟩
    unfold mergeComp
    rw [if_neg (hv ▸ hc), hv]

theorem kruskal_count (n : ℕ) (es : List (Fin n × Fin n)) (comp : Fin n → Fin n) :
    (kruskalGo n es comp).2.length + (Finset.univ.image (kruskalGo n es comp).1).card =
      (Finset.univ.image comp).card := by
  induction es generalizing comp with
  | nil => simp [kruskalGo]
  | cons e es ih =>
    by_cases he : comp e.1 = comp e.2
    · simp only [kruskalGo, if_pos he]
      exact ih comp
    · simp only [kruskalGo, if_neg he, List.length_cons]
      have h1 := ih (mergeComp n comp (comp e.1) (comp e.2))
      rw [image_mergeComp n comp e he] at h1
      have hmem : comp e.1 ∈ Finset.univ.image comp :=
        Finset.mem_image.mpr ⟨e.1, Finset.mem_univ _, rfl⟩
      have hcard := Finset.card_erase_of_mem hmem
      have hpos : 1 ≤ (Finset.univ.image comp).card :=
        Finset.card_pos.mpr ⟨comp e.1, hmem⟩
      omega

/-! ## Exchange lemmas for minimality -/

theorem last_exit (n : ℕ) (mem : Fin n × Fin n → Prop) (S : Fin n → Prop)
    {a b : Fin n} (h : Reach n mem a b) :
    S a → ¬ S b →
    ∃ x y, S x ∧ ¬ S y ∧ adjRel n mem x y ∧
      Relation.ReflTransGen (fun u v => adjRel n mem u v ∧ ¬ S u ∧ ¬ S v) y b := by
  induction h with
  | refl => intro ha hb; exact absurd ha hb
  | @tail c b2 hac hstep ih =>
    intro ha hb
    by_cases hc : S c
    · exact ⟨c, b2, hc, hb, hstep, Relation.ReflTransGen.refl⟩
    · obtain ⟨x, y, hx, hy, hadj, hout⟩ := ih ha hc
      exact ⟨x, y, hx, hy, hadj, hout.tail ⟨hstep, hc, hb⟩⟩

theorem reach_replace (n : ℕ) {mem memT : Fin n × Fin n → Prop} (f : Fin n × Fin n)
    (hsub : ∀ p, mem p → p ≠ f → memT p) (hf : Reach n memT f.1 f.2)
    {a b : Fin n} (h : Reach n mem a b) : Reach n memT a b := by
  induction h with
  | refl => exact Relation.ReflTransGen.refl
  | @tail c b2 hac hstep ih =>
    refine ih.trans ?_
    cases hstep with
    | inl hp =>
      by_cases hpf : (c, b2) = f
      · have hc : c = f.1 := congrArg Prod.fst hpf
        have hb2 : b2 = f.2 := congrArg Prod.snd hpf
        rw [hc, hb2]
        exact hf
      · exact Relation.ReflTransGen.single (Or.inl (hsub _ hp hpf))
    | inr hp =>
      by_cases hpf : (b2, c) = f
      · have hb2 : b2 = f.1 := congrArg Prod.fst hpf
        have hc : c = f.2 := congrArg Prod.snd hpf
        rw [hc, hb2]
        exact reach_symm n memT hf
      · exact Relation.ReflTransGen.single (Or.inr (hsub _ hp hpf))

theorem reachOut_avoid (n : ℕ) (T : Finset (Fin n × Fin n)) (S : Fin n → Prop)
    (f : Fin n × Fin n) (hfS : S f.1 ∨ S f.2) {a b : Fin n}
    (h : Relation.ReflTransGen
      (fun u v => adjRel n (fun p => p ∈ T) u v ∧ ¬ S u ∧ ¬ S v) a b) :
    Reach n (fun p => p ∈ T.erase f) a b := by
  induction h with
  | refl => exact Relation.ReflTransGen.refl
  | @tail c b2 hac hstep ih =>
    obtain ⟨hadj, hnc, hnb⟩ := hstep
    refine ih.tail ?_
    cases hadj with
    | inl hp =>
      refine Or.inl (Finset.mem_erase.mpr ⟨?_, hp⟩)
      intro hh
      rw [← hh] at hfS
      exact hfS.elim hnc hnb
    | inr hp =>
      refine Or.inr (Finset.mem_erase.mpr ⟨?_, hp⟩)
      intro hh
      rw [← hh] at hfS
      exact hfS.elim hnb hnc

/-- One exchange step: a spanning tree `T` containing every already chosen
edge can be transformed, without increasing its weight, into a spanning tree
that also contains the edge `e` that Kruskal is about to keep. -/
theorem exchange_promise (n : ℕ) (d : Fin n → Fin n → ℚ) (comp : Fin n → Fin n)
    (chosen : List (Fin n × Fin n)) (e : Fin n × Fin n) (es : List (Fin n × Fin n))
    (Hc : ∀ v w, comp v = comp w ↔ Reach n (fun p => p ∈ chosen) v w)
    (he : comp e.1 ≠ comp e.2)
    (heE : e ∈ upperEdges n d)
    (Hs : (e :: es).Pairwise (edgeLE n d))
    (Hcov : ∀ g ∈ upperEdges n d, comp g.1 = comp g.2 ∨ g ∈ e :: es)
    (T : Finset (Fin n × Fin n)) (hT : SpanTree n d T)
    (hcsub : ∀ g ∈ chosen, g ∈ T) :
    ∃ X, SpanTree n d X ∧ (∀ g ∈ e :: chosen, g ∈ X) ∧
      setWeight n d X ≤ setWeight n d T := by
  by_cases heT : e ∈ T
  · refine ⟨T, hT, ?_, le_refl _⟩
    intro g hg
    rcases List.mem_cons.mp hg with rfl | hgc
    · exact heT
    · exact hcsub g hgc
  · obtain ⟨hTE, hTconn, hTcard⟩ := hT
    have hSb : ¬ comp e.2 = comp e.1 := fun hs => he hs.symm
    obtain ⟨x, y, hSx, hSy, hadj, hout⟩ :=
      last_exit n (fun p => p ∈ T) (fun v => comp v = comp e.1)
        (hTconn e.1 e.2) rfl hSb
    obtain ⟨f, hfT, hfdir⟩ : ∃ f, f ∈ T ∧ (f = (x, y) ∨ f = (y, x)) := by
      cases hadj with
      | inl hp => exact ⟨(x, y), hp, Or.inl rfl⟩
      | inr hp => exact ⟨(y, x), hp, Or.inr rfl⟩
    have hfS : comp f.1 = comp e.1 ∨ comp f.2 = comp e.1 := by
      rcases hfdir with rfl | rfl
      · exact Or.inl hSx
      · exact Or.inr hSx
    have hfcross : comp f.1 ≠ comp f.2 := by
      rcases hfdir with rfl | rfl
      · exact fun hh => hSy (hh.symm.trans hSx)
      · exact fun hh => hSy (hh.trans hSx)
    have hfnc : f ∉ chosen := by
      intro hfc
      exact hfcross ((Hc f.1 f.2).mpr (Relation.ReflTransGen.single (Or.inl hfc)))
    have hfe : f ≠ e := fun hh => heT (hh ▸ hfT)
    have hfes : f ∈ es := by
      rcases Hcov f (hTE f hfT) with hsame | hmem
      · exact absurd hsame hfcross
      · rcases List.mem_cons.mp hmem with rfl | hh
        · exact absurd rfl hfe
        · exact hh
    have hwef : d e.1 e.2 ≤ d f.1 f.2 := (List.pairwise_cons.mp Hs).1 f hfes
    -- the exchanged tree
    refine ⟨insert e (T.erase f), ?_, ?_, ?_⟩
    · -- it is a spanning tree
      have heX : e ∈ insert e (T.erase f) := Finset.mem_insert_self e _
      have hchX : ∀ g ∈ chosen, g ∈ insert e (T.erase f) := by
        intro g hg
        exact Finset.mem_insert_of_mem
          (Finset.mem_erase.mpr ⟨fun hh => hfnc (hh ▸ hg), hcsub g hg⟩)
      have hxy : Reach n (fun p => p ∈ insert e (T.erase f)) x y := by
        have h1 : Reach n (fun p => p ∈ insert e (T.erase f)) x e.1 :=
          reach_mono n (fun p hp => hchX p hp) ((Hc x e.1).mp hSx)
        have h2 : Reach n (fun p => p ∈ insert e (T.erase f)) e.1 e.2 :=
          Relation.ReflTransGen.single (Or.inl heX)
        have h3 : Reach n (fun p => p ∈ insert e (T.erase f)) y e.2 :=
          reach_mono n (fun p hp => Finset.mem_insert_of_mem hp)
            (reachOut_avoid n T (fun v => comp v = comp e.1) f hfS hout)
        exact (h1.trans h2).trans (reach_symm n _ h3)
      refine ⟨?_, ?_, ?_⟩
      · intro p hp
        rcases Finset.mem_insert.mp hp with rfl | hpe
        · exact heE
        · exact hTE p (Finset.mem_of_mem_erase hpe)
      · intro v w
        refine reach_replace n f ?_ ?_ (hTconn v w)
        · intro p hp hpf
          exact Finset.mem_insert_of_mem (Finset.mem_erase.mpr ⟨hpf, hp⟩)
        · rcases hfdir with rfl | rfl
          · exact hxy
          · exact reach_symm n _ hxy
      · have hne : e ∉ T.erase f := fun hh => heT (Finset.mem_of_mem_erase hh)
        rw [Finset.card_insert_of_not_mem hne, Finset.card_erase_of_mem hfT]
        have hpos : 1 ≤ T.card := Finset.card_pos.mpr ⟨f, hfT⟩
        omega
    · intro g hg
      rcases List.mem_cons.mp hg with rfl | hgc
      · exact Finset.mem_insert_self g _
      · exact Finset.mem_insert_of_mem
          (Finset.mem_erase.mpr ⟨fun hh => hfnc (hh ▸ hgc), hcsub g hgc⟩)
    · have hne : e ∉ T.erase f := fun hh => heT (Finset.mem_of_mem_erase hh)
      unfold setWeight
      rw [Finset.sum_insert hne]
      have hsum := Finset.sum_erase_add T (fun p => d p.1 p.2) hfT
      have := hwef
      linarith

/-- Promise invariant of Kruskal's loop: every spanning tree can be improved
(not increasing its weight) to one containing all edges the loop keeps. -/
theorem kruskal_min (n : ℕ) (d : Fin n → Fin n → ℚ) (es : List (Fin n × Fin n)) :
    ∀ (comp : Fin n → Fin n) (chosen : List (Fin n × Fin n)),
    (∀ v w, comp v = comp w ↔ Reach n (fun p => p ∈ chosen) v w) →
    es.Pairwise (edgeLE n d) →
    (∀ g ∈ es, g ∈ upperEdges n d) →
    (∀ g ∈ upperEdges n d, comp g.1 = comp g.2 ∨ g ∈ es) →
    (∀ T0, SpanTree n d T0 → ∃ X, SpanTree n d X ∧ (∀ g ∈ chosen, g ∈ X) ∧
      setWeight n d X ≤ setWeight n d T0) →
    ∀ T, SpanTree n d T →
      ∃ X, SpanTree n d X ∧ (∀ g ∈ chosen ++ (kruskalGo n es comp).2, g ∈ X) ∧
        setWeight n d X ≤ setWeight n d T := by
  induction es with
  | nil =>
    intro comp chosen Hc Hs HesE Hcov Hprom T hT
    obtain ⟨X, hX, hsub, hw⟩ := Hprom T hT
    refine ⟨X, hX, ?_, hw⟩
    intro g hg
    simp only [kruskalGo, List.append_nil] at hg
    exact hsub g hg
  | cons e es ih =>
    intro comp chosen Hc Hs HesE Hcov Hprom T hT
    by_cases he : comp e.1 = comp e.2
    · have Hcov2 : ∀ g ∈ upperEdges n d, comp g.1 = comp g.2 ∨ g ∈ es := by
        intro g hg
        rcases Hcov g hg with hh | hh
        · exact Or.inl hh
        · rcases List.mem_cons.mp hh with rfl | hh2
          · exact Or.inl he
          · exact Or.inr hh2
      obtain ⟨X, hX, hsub, hw⟩ := ih comp chosen Hc (List.pairwise_cons.mp Hs).2
        (fun g hg => HesE g (List.mem_cons_of_mem e hg)) Hcov2 Hprom T hT
      refine ⟨X, hX, ?_, hw⟩
      intro g hg
      apply hsub
      simpa [kruskalGo, if_pos he] using hg
    · have heE : e ∈ upperEdges n d := HesE e (List.mem_cons_self e es)
      have Hc2 := comp_merge_iff n comp chosen Hc e he
      have Hcov2 : ∀ g ∈ upperEdges n d,
          mergeComp n comp (comp e.1) (comp e.2) g.1 =
            mergeComp n comp (comp e.1) (comp e.2) g.2 ∨ g ∈ es := by
        intro g hg
        rcases Hcov g hg with hh | hh
        · exact Or.inl (mergeComp_congr n comp _ _ hh)
        · rcases List.mem_cons.mp hh with rfl | hh2
          · exact Or.inl (mergeComp_ends n comp g he)
          · exact Or.inr hh2
      have Hprom2 : ∀ T0, SpanTree n d T0 → ∃ X, SpanTree n d X ∧
          (∀ g ∈ e :: chosen, g ∈ X) ∧ setWeight n d X ≤ setWeight n d T0 := by
        intro T0 hT0
        obtain ⟨X1, hX1, hs1, hw1⟩ := Hprom T0 hT0
        obtain ⟨X2, hX2, hs2, hw2⟩ :=
          exchange_promise n d comp chosen e es Hc he heE Hs Hcov X1 hX1 hs1
        exact ⟨X2, hX2, hs2, hw2.trans hw1⟩
      obtain ⟨X, hX, hsub, hw⟩ := ih (mergeComp n comp (comp e.1) (comp e.2))
        (e :: chosen) Hc2 (List.pairwise_cons.mp Hs).2
        (fun g hg => HesE g (List.mem_cons_of_mem e hg)) Hcov2 Hprom2 T hT
      refine ⟨X, hX, ?_, hw⟩
      intro g hg
      apply hsub
      simp [kruskalGo, if_neg he] at hg
      simp only [List.mem_append, List.mem_cons] at hg ⊢
      tauto

/-! ## Assembly of the per-cluster MST facts -/

theorem upperEdges_mem (n : ℕ) (d : Fin n → Fin n → ℚ) (p : Fin n × Fin n) :
    p ∈ upperEdges n d ↔ p.1 < p.2 ∧ d p.1 p.2 ≠ 0 := by
  obtain ⟨a, b⟩ := p
  unfold upperEdges
  rw [List.mem_filter]
  simp only [decide_eq_true_eq]
  constructor
  · rintro ⟨_, h⟩
    exact h
  · intro h
    exact ⟨List.pair_mem_product.mpr ⟨List.mem_finRange _, List.mem_finRange _⟩, h⟩

theorem upperEdges_nodup (n : ℕ) (d : Fin n → Fin n → ℚ) : (upperEdges n d).Nodup :=
  List.Nodup.filter _ ((List.nodup_finRange n).product (List.nodup_finRange n))

theorem sortEdges_pairwise (n : ℕ) (d : Fin n → Fin n → ℚ) :
    (sortEdges n d).Pairwise (edgeLE n d) :=
  List.sorted_insertionSort (edgeLE n d) (upperEdges n d)

theorem mstEdges_sub (n : ℕ) (d : Fin n → Fin n → ℚ) :
    ∀ p ∈ mstEdges n d, p ∈ upperEdges n d := fun p hp =>
  (List.perm_insertionSort (edgeLE n d) (upperEdges n d)).subset
    ((kruskal_sublist n (sortEdges n d) id).subset hp)

theorem mstEdges_nodup (n : ℕ) (d : Fin n → Fin n → ℚ) : (mstEdges n d).Nodup :=
  (kruskal_sublist n (sortEdges n d) id).nodup
    ((List.perm_insertionSort (edgeLE n d) (upperEdges n d)).nodup_iff.mpr
      (upperEdges_nodup n d))

theorem id_Hc (n : ℕ) : ∀ v w : Fin n, (id : Fin n → Fin n) v = id w ↔
    Reach n (fun p => p ∈ ([] : List (Fin n × Fin n))) v w := by
  intro v w
  constructor
  · intro h
    have hvw : v = w := h
    subst hvw
    exact Relation.ReflTransGen.refl
  · intro h
    exact reach_empty n (fun p hp => List.not_mem_nil p hp) h

theorem connectedCheck_imp_connected (n : ℕ) (d : Fin n → Fin n → ℚ)
    (h : ConnectedCheck n d) : Connected n d := by
  intro v w
  unfold ConnectedCheck connComp at h
  have := (kruskal_Hc n (upperEdges n d) id [] (id_Hc n) v w).mp (h v w)
  refine reach_mono n ?_ this
  intro p hp
  simp only [List.nil_append] at hp
  exact (kruskal_sublist n (upperEdges n d) id).subset hp

theorem kruskal_conn_comp_const (n : ℕ) (d : Fin n → Fin n → ℚ)
    (hconn : Connected n d) (v w : Fin n) :
    (kruskalGo n (sortEdges n d) id).1 v = (kruskalGo n (sortEdges n d) id).1 w := by
  have hproc : ∀ g ∈ upperEdges n d,
      (kruskalGo n (sortEdges n d) id).1 g.1 = (kruskalGo n (sortEdges n d) id).1 g.2 :=
    fun g hg => kruskal_processed n (sortEdges n d) id g
      ((List.perm_insertionSort (edgeLE n d) (upperEdges n d)).mem_iff.mpr hg)
  induction hconn v w with
  | refl => rfl
  | tail hac hstep ih =>
    cases hstep with
    | inl hp => exact ih.trans (hproc _ hp)
    | inr hp => exact ih.trans (hproc _ hp).symm

theorem image_const_card (n : ℕ) (h1 : 1 ≤ n) (f : Fin n → Fin n)
    (hconst : ∀ v w, f v = f w) : (Finset.univ.image f).card = 1 := by
  apply Finset.card_eq_one.mpr
  refine ⟨f ⟨0, by omega⟩, ?_⟩
  ext c
  simp only [Finset.mem_image, Finset.mem_univ, true_and, Finset.mem_singleton]
  constructor
  · rintro ⟨v, rfl⟩
    exact hconst v _
  · rintro rfl
    exact ⟨⟨0, by omega⟩, rfl⟩

theorem mstEdges_length (n : ℕ) (d : Fin n → Fin n → ℚ) (h1 : 1 ≤ n)
    (hconn : Connected n d) : (mstEdges n d).length = n - 1 := by
  have hcnt := kruskal_count n (sortEdges n d) id
  rw [Finset.image_id, Finset.card_univ, Fintype.card_fin] at hcnt
  have hone := image_const_card n h1 _ (kruskal_conn_comp_const n d hconn)
  unfold mstEdges
  omega

theorem mstNonzeroPairs_eq (n : ℕ) (d : Fin n → Fin n → ℚ)
    (hint : ∀ i j, 0 ≤ d i j ∧ (d i j).den = 1) :
    mstNonzeroPairs n d = (mstEdges n d).toFinset := by
  ext p
  unfold mstNonzeroPairs
  simp only [Finset.mem_filter, Finset.mem_univ, true_and, List.mem_toFinset]
  constructor
  · intro hp
    by_contra hmem
    apply hp
    unfold mstMat
    rw [if_neg (by rw [Prod.mk.eta]; exact hmem)]
  · intro hp
    unfold mstMat
    rw [if_pos (by rw [Prod.mk.eta]; exact hp)]
    obtain ⟨hnn, hden⟩ := hint p.1 p.2
    have hne : d p.1 p.2 ≠ 0 := ((upperEdges_mem n d p).mp (mstEdges_sub n d p hp)).2
    rw [truncInt_eq_floor _ hnn]
    have hq : ((d p.1 p.2).num : ℚ) = d p.1 p.2 := (Rat.den_eq_one_iff _).mp hden
    have hpos : 0 < (d p.1 p.2).num := by
      refine lt_of_le_of_ne (Rat.num_nonneg.mpr hnn) ?_
      intro hh
      exact hne (by rw [← hq, ← hh]; norm_num)
    have h1 : (1 : ℚ) ≤ d p.1 p.2 := by
      rw [← hq]
      exact_mod_cast hpos
    have h1f : 1 ≤ ⌊d p.1 p.2⌋ := Int.le_floor.mpr (by exact_mod_cast h1)
    omega

theorem mstStoredWeight_eq (n : ℕ) (d : Fin n → Fin n → ℚ)
    (hint : ∀ i j, 0 ≤ d i j ∧ (d i j).den = 1) :
    mstStoredWeight n d = setWeight n d (mstEdges n d).toFinset := by
  unfold mstStoredWeight setWeight
  rw [mstNonzeroPairs_eq n d hint]
  apply Finset.sum_congr rfl
  intro p hp
  rw [List.mem_toFinset] at hp
  unfold mstMat
  rw [if_pos (by rw [Prod.mk.eta]; exact hp)]
  obtain ⟨hnn, hden⟩ := hint p.1 p.2
  rw [truncInt_eq_floor _ hnn]
  have hq : ((d p.1 p.2).num : ℚ) = d p.1 p.2 := (Rat.den_eq_one_iff _).mp hden
  rw [← hq, Int.floor_intCast]

/-- Claim C1 (amended): for a retained cluster (size at least 2) whose
sub-matrix is connected and whose entries are non-negative integer-valued
rationals (as in the simple combination mode, where entries are sums of edit
distances), the adjacency returned by `mst` contains exactly n - 1 edges and
the total stored weight of those edges is at most the total weight of every
spanning tree over the same sub-matrix.  The restriction to integer-valued
entries is forced by the source's `astype(int)` conversion: with fractional
weights the stored adjacency can lose tree edges (see the counterexample). -/
theorem mst_integer_connected (n : ℕ) (d : Fin n → Fin n → ℚ) (h2 : 2 ≤ n)
    (hconn : Connected n d) (hint : ∀ i j, 0 ≤ d i j ∧ (d i j).den = 1) :
    (mstNonzeroPairs n d).card = n - 1 ∧
    ∀ T, SpanTree n d T → mstStoredWeight n d ≤ setWeight n d T := by
  have h1 : 1 ≤ n := by omega
  have hlen := mstEdges_length n d h1 hconn
  constructor
  · rw [mstNonzeroPairs_eq n d hint, List.toFinset_card_of_nodup (mstEdges_nodup n d)]
    exact hlen
  · intro T hT
    obtain ⟨X, hX, hsub, hw⟩ := kruskal_min n d (sortEdges n d) id [] (id_Hc n)
      (sortEdges_pairwise n d)
      (fun g hg => (List.perm_insertionSort (edgeLE n d) (upperEdges n d)).subset hg)
      (fun g hg => Or.inr
        ((List.perm_insertionSort (edgeLE n d) (upperEdges n d)).mem_iff.mpr hg))
      (fun T0 hT0 => ⟨T0, hT0, fun g hg => absurd hg (List.not_mem_nil g), le_refl _⟩)
      T hT
    have hsubF : (mstEdges n d).toFinset ⊆ X := by
      intro p hp
      rw [List.mem_toFinset] at hp
      refine hsub p ?_
      simp only [List.nil_append]
      exact hp
    have hcards : X.card ≤ (mstEdges n d).toFinset.card := by
      rw [List.toFinset_card_of_nodup (mstEdges_nodup n d), hlen, hX.2.2]
    have hXeq : (mstEdges n d).toFinset = X :=
      Finset.eq_of_subset_of_card_le hsubF hcards
    rw [mstStoredWeight_eq n d hint, hXeq]
    exact hw

/-- Claim C1 (counterexample): the 2-entity cluster at combined distance 1/2
is connected, yet the adjacency returned by `mst` contains 0 nonzero cells
rather than the claimed n - 1 = 1: the `astype(int)` conversion truncates the
tree edge weight 1/2 to 0. -/
theorem mst_fractional_weight_counterexample :
    Connected 2 dHalf ∧ (mstNonzeroPairs 2 dHalf).card ≠ 2 - 1 :=
  ⟨connectedCheck_imp_connected 2 dHalf (by with_unfolding_all decide),
    by with_unfolding_all decide⟩

/-- Witness for the amended C1 at the 2-entity cluster with integer distance
1: both hypotheses hold and the stated conclusion follows. -/
theorem mst_integer_connected_witness :
    (2 ≤ 2) ∧ Connected 2 dEx2 ∧
    ((mstNonzeroPairs 2 dEx2).card = 2 - 1 ∧
      ∀ T, SpanTree 2 dEx2 T → mstStoredWeight 2 dEx2 ≤ setWeight 2 dEx2 T) :=
  ⟨le_refl 2,
    connectedCheck_imp_connected 2 dEx2 (by with_unfolding_all decide),
    mst_integer_connected 2 dEx2 (le_refl 2)
      (connectedCheck_imp_connected 2 dEx2 (by with_unfolding_all decide))
      (by with_unfolding_all decide)⟩

/-! ## Claim C6: the merged edge list -/

theorem clusterMembers_sorted (m : ℕ) (key : Fin m → ℕ) (c : ℕ) :
    (clusterMembers m key c).Pairwise (· < ·) :=
  List.Pairwise.filter _ (List.pairwise_lt_finRange m)

theorem clusterMembers_mem (m : ℕ) (key : Fin m → ℕ) (c : ℕ) (i : Fin m) :
    i ∈ clusterMembers m key c ↔ key i = c := by
  unfold clusterMembers
  rw [List.mem_filter]
  simp [List.mem_finRange]

theorem sorted_get_lt (m : ℕ) {ms : List (Fin m)} (hms : ms.Pairwise (· < ·))
    {a b : Fin ms.length} (h : a < b) : ms.get a < ms.get b :=
  List.pairwise_iff_get.mp hms a b h

theorem sorted_get_inj (m : ℕ) {ms : List (Fin m)} (hms : ms.Pairwise (· < ·))
    {a b : Fin ms.length} (h : ms.get a = ms.get b) : a = b := by
  rcases lt_trichotomy a b with hl | he | hl
  · exact absurd (sorted_get_lt m hms hl) (by rw [h]; exact lt_irrefl _)
  · exact he
  · exact absurd (sorted_get_lt m hms hl) (by rw [h]; exact lt_irrefl _)

theorem mstMat_ne_zero_mem (n : ℕ) (d : Fin n → Fin n → ℚ) {i j : Fin n}
    (h : mstMat n d i j ≠ 0) : (i, j) ∈ mstEdges n d := by
  by_contra hm
  exact h (by unfold mstMat; rw [if_neg hm])

theorem clusterMstRows_mem (m : ℕ) (D : Fin m → Fin m → ℚ) (ms : List (Fin m))
    (r : Fin m × Fin m × ℚ) :
    r ∈ clusterMstRows m D ms ↔ ∃ p : Fin ms.length × Fin ms.length,
      mstMat ms.length (subMatrix m D ms) p.1 p.2 ≠ 0 ∧
      r = (ms.get p.1, ms.get p.2,
        ((mstMat ms.length (subMatrix m D ms) p.1 p.2 : ℤ) : ℚ)) := by
  unfold clusterMstRows
  rw [List.mem_filterMap]
  constructor
  · rintro ⟨p, _, hfp⟩
    by_cases hc : mstMat ms.length (subMatrix m D ms) p.1 p.2 ≠ 0
    · rw [if_pos hc] at hfp
      exact ⟨p, hc, (Option.some_inj.mp hfp).symm⟩
    · rw [if_neg hc] at hfp
      exact Option.noConfusion hfp
  · rintro ⟨⟨pa, pb⟩, hc, rfl⟩
    exact ⟨(pa, pb),
      List.pair_mem_product.mpr ⟨List.mem_finRange _, List.mem_finRange _⟩, if_pos hc⟩

theorem clusterFallbackRows_mem (m : ℕ) (ms : List (Fin m)) (r : Fin m × Fin m × ℚ) :
    r ∈ clusterFallbackRows m ms ↔ ∃ p : Fin ms.length × Fin ms.length,
      p.1 < p.2 ∧ r = (ms.get p.1, ms.get p.2, (1 : ℚ)) := by
  unfold clusterFallbackRows
  rw [List.mem_filterMap]
  constructor
  · rintro ⟨p, _, hfp⟩
    by_cases hc : p.1 < p.2
    · rw [if_pos hc] at hfp
      exact ⟨p, hc, (Option.some_inj.mp hfp).symm⟩
    · rw [if_neg hc] at hfp
      exact Option.noConfusion hfp
  · rintro ⟨⟨pa, pb⟩, hc, rfl⟩
    exact ⟨(pa, pb),
      List.pair_mem_product.mpr ⟨List.mem_finRange _, List.mem_finRange _⟩, if_pos hc⟩

theorem clusterMstRows_facts (m : ℕ) (D : Fin m → Fin m → ℚ) (ms : List (Fin m))
    (hms : ms.Pairwise (· < ·)) :
    ∀ r ∈ clusterMstRows m D ms, r.1 < r.2.1 ∧ r.1 ∈ ms ∧ r.2.1 ∈ ms := by
  intro r hr
  obtain ⟨p, hc, rfl⟩ := (clusterMstRows_mem m D ms r).mp hr
  have hp := mstMat_ne_zero_mem ms.length (subMatrix m D ms) hc
  have hlt : p.1 < p.2 :=
    ((upperEdges_mem ms.length (subMatrix m D ms) (p.1, p.2)).mp
      (mstEdges_sub ms.length (subMatrix m D ms) (p.1, p.2) hp)).1
  exact ⟨sorted_get_lt m hms hlt,
    List.get_mem ms p.1.val p.1.isLt, List.get_mem ms p.2.val p.2.isLt⟩

theorem clusterFallbackRows_facts (m : ℕ) (ms : List (Fin m))
    (hms : ms.Pairwise (· < ·)) :
    ∀ r ∈ clusterFallbackRows m ms, r.1 < r.2.1 ∧ r.1 ∈ ms ∧ r.2.1 ∈ ms := by
  intro r hr
  obtain ⟨p, hlt, rfl⟩ := (clusterFallbackRows_mem m ms r).mp hr
  exact ⟨sorted_get_lt m hms hlt,
    List.get_mem ms p.1.val p.1.isLt, List.get_mem ms p.2.val p.2.isLt⟩

theorem clusterMstRows_keys_nodup (m : ℕ) (D : Fin m → Fin m → ℚ) (ms : List (Fin m))
    (hms : ms.Pairwise (· < ·)) :
    ((clusterMstRows m D ms).map (rowKey m)).Nodup := by
  unfold clusterMstRows
  rw [List.map_filterMap]
  refine List.Nodup.filterMap ?_
    ((List.nodup_finRange _).product (List.nodup_finRange _))
  intro a b k hka hkb
  by_cases ha : mstMat ms.length (subMatrix m D ms) a.1 a.2 ≠ 0
  · by_cases hb : mstMat ms.length (subMatrix m D ms) b.1 b.2 ≠ 0
    · rw [if_pos ha] at hka
      rw [if_pos hb] at hkb
      simp only [Option.map_some', Option.mem_def, Option.some_inj] at hka hkb
      have hk := hka.trans hkb.symm
      unfold rowKey at hk
      exact Prod.ext_iff.mpr ⟨sorted_get_inj m hms (Prod.ext_iff.mp hk).1,
        sorted_get_inj m hms (Prod.ext_iff.mp hk).2⟩
    · rw [if_neg hb] at hkb
      simp at hkb
  · rw [if_neg ha] at hka
    simp at hka

theorem clusterFallbackRows_keys_nodup (m : ℕ) (ms : List (Fin m))
    (hms : ms.Pairwise (· < ·)) :
    ((clusterFallbackRows m ms).map (rowKey m)).Nodup := by
  unfold clusterFallbackRows
  rw [List.map_filterMap]
  refine List.Nodup.filterMap ?_
    ((List.nodup_finRange _).product (List.nodup_finRange _))
  intro a b k hka hkb
  by_cases ha : a.1 < a.2
  · by_cases hb : b.1 < b.2
    · rw [if_pos ha] at hka
      rw [if_pos hb] at hkb
      simp only [Option.map_some', Option.mem_def, Option.some_inj] at hka hkb
      have hk := hka.trans hkb.symm
      unfold rowKey at hk
      exact Prod.ext_iff.mpr ⟨sorted_get_inj m hms (Prod.ext_iff.mp hk).1,
        sorted_get_inj m hms (Prod.ext_iff.mp hk).2⟩
    · rw [if_neg hb] at hkb
      simp at hkb
  · rw [if_neg ha] at hka
    simp at hka

theorem retainedKeys_nodup (m : ℕ) (key : Fin m → ℕ) : (retainedKeys m key).Nodup :=
  List.Nodup.filter _ (List.nodup_dedup _)

theorem retainedKeys_sub (m : ℕ) (key : Fin m → ℕ) :
    ∀ c ∈ retainedKeys m key, c ∈ clusterKeys m key := fun c hc =>
  List.mem_of_mem_filter hc

theorem flatMap_cluster_keys_nodup (m : ℕ) (cs : List ℕ) (key : Fin m → ℕ)
    (rows : ℕ → List (Fin m × Fin m × ℚ)) (hnd : cs.Nodup)
    (hin : ∀ c ∈ cs, ((rows c).map (rowKey m)).Nodup)
    (hsrc : ∀ c ∈ cs, ∀ r ∈ rows c, r.1 ∈ clusterMembers m key c) :
    ((cs.flatMap fun c => rows c).map (rowKey m)).Nodup := by
  rw [List.map_flatMap, List.nodup_flatMap]
  refine ⟨fun c hc => hin c hc, ?_⟩
  refine List.Pairwise.imp_of_mem ?_ hnd
  intro c c2 hc hc2 hne
  intro k hk1 hk2
  rw [List.mem_map] at hk1 hk2
  obtain ⟨r1, hr1, hk1⟩ := hk1
  obtain ⟨r2, hr2, hk2⟩ := hk2
  have hm1 : r1.1 ∈ clusterMembers m key c := hsrc c hc r1 hr1
  have hm2 : r2.1 ∈ clusterMembers m key c2 := hsrc c2 hc2 r2 hr2
  have hf1 : key r1.1 = c := (clusterMembers_mem m key c r1.1).mp hm1
  have hf2 : key r2.1 = c2 := (clusterMembers_mem m key c2 r2.1).mp hm2
  have hr12 : r1.1 = r2.1 := by
    have hk := hk1.trans hk2.symm
    unfold rowKey at hk
    exact (Prod.ext_iff.mp hk).1
  exact hne ((hf1.symm.trans (by rw [hr12])).trans hf2)

theorem clusterKeys_nodup (m : ℕ) (key : Fin m → ℕ) : (clusterKeys m key).Nodup :=
  List.nodup_dedup _

theorem mstRows_keys_nodup (m : ℕ) (clone group : Fin m → ℕ) (cbg : Bool)
    (D : Fin m → Fin m → ℚ) :
    ((mstRows m clone group cbg D).map (rowKey m)).Nodup := by
  unfold mstRows
  exact flatMap_cluster_keys_nodup m _ (mstKey m clone group cbg) _
    (retainedKeys_nodup m _)
    (fun c _ => clusterMstRows_keys_nodup m D _ (clusterMembers_sorted m _ c))
    (fun c _ r hr =>
      (clusterMstRows_facts m D _ (clusterMembers_sorted m _ c) r hr).2.1)

theorem fallbackRows_keys_nodup (m : ℕ) (clone : Fin m → ℕ) :
    ((fallbackRows m clone).map (rowKey m)).Nodup := by
  unfold fallbackRows
  exact flatMap_cluster_keys_nodup m _ clone _
    (clusterKeys_nodup m clone)
    (fun c _ => clusterFallbackRows_keys_nodup m _ (clusterMembers_sorted m _ c))
    (fun c _ r hr =>
      (clusterFallbackRows_facts m _ (clusterMembers_sorted m _ c) r hr).2.1)

theorem mstRows_lt (m : ℕ) (clone group : Fin m → ℕ) (cbg : Bool)
    (D : Fin m → Fin m → ℚ) :
    ∀ r ∈ mstRows m clone group cbg D, r.1 < r.2.1 := by
  intro r hr
  unfold mstRows at hr
  rw [List.mem_flatMap] at hr
  obtain ⟨c, _, hrc⟩ := hr
  exact (clusterMstRows_facts m D _ (clusterMembers_sorted m _ c) r hrc).1

theorem fallbackRows_lt (m : ℕ) (clone : Fin m → ℕ) :
    ∀ r ∈ fallbackRows m clone, r.1 < r.2.1 := by
  intro r hr
  unfold fallbackRows at hr
  rw [List.mem_flatMap] at hr
  obtain ⟨c, _, hrc⟩ := hr
  exact (clusterFallbackRows_facts m _ (clusterMembers_sorted m _ c) r hrc).1

theorem mergedRows_lt (m : ℕ) (clone group : Fin m → ℕ) (cbg : Bool)
    (D : Fin m → Fin m → ℚ) :
    ∀ r ∈ mergedRows m clone group cbg D, r.1 < r.2.1 := by
  intro r hr
  unfold mergedRows at hr
  rcases List.mem_append.mp hr with hr2 | hr2
  · exact mstRows_lt m clone group cbg D r hr2
  · exact fallbackRows_lt m clone r (List.mem_of_mem_filter hr2)

theorem mergedRows_keys_nodup (m : ℕ) (clone group : Fin m → ℕ) (cbg : Bool)
    (D : Fin m → Fin m → ℚ) :
    ((mergedRows m clone group cbg D).map (rowKey m)).Nodup := by
  unfold mergedRows
  rw [List.map_append]
  refine List.Nodup.append (mstRows_keys_nodup m clone group cbg D)
    ((List.Sublist.map (rowKey m) (List.filter_sublist _)).nodup
      (fallbackRows_keys_nodup m clone)) ?_
  intro k hk1 hk2
  rw [List.mem_map] at hk1 hk2
  obtain ⟨r1, hr1, hk1⟩ := hk1
  obtain ⟨r2, hr2, hk2⟩ := hk2
  rw [List.mem_filter] at hr2
  have hcond := hr2.2
  rw [Bool.not_eq_true'] at hcond
  rw [List.any_eq_false] at hcond
  have := hcond r1 hr1
  simp only [decide_eq_true_eq] at this
  exact this (hk1.trans hk2.symm)

/-- Claim C6: for every input, the merged edge list of `generate_network`
has no self-loops, no two rows with the same ordered (source, target) key,
no two rows that are reverses of one another (so no duplicate unordered
pair), and every row's weight equals the entry of the total distance matrix
at its (source, target), not a placeholder. -/
theorem edge_list_merge_sound (m : ℕ) (clone group : Fin m → ℕ) (cbg : Bool)
    (D : Fin m → Fin m → ℚ) :
    (∀ r ∈ edgeListFinal m clone group cbg D, r.1 ≠ r.2.1) ∧
    ((edgeListFinal m clone group cbg D).map (rowKey m)).Nodup ∧
    (edgeListFinal m clone group cbg D).Pairwise
      (fun r q => ¬(r.1 = q.2.1 ∧ r.2.1 = q.1)) ∧
    (∀ r ∈ edgeListFinal m clone group cbg D, r.2.2 = D r.1 r.2.1) := by
  unfold edgeListFinal
  by_cases hret : retainedKeys m (mstKey m clone group cbg) = []
  · rw [if_pos hret]
    refine ⟨?_, ?_, ?_, ?_⟩ <;> simp
  · rw [if_neg hret]
    have hlt := mergedRows_lt m clone group cbg D
    refine ⟨?_, ?_, ?_, ?_⟩
    · intro r hr
      rw [List.mem_map] at hr
      obtain ⟨q, hq, rfl⟩ := hr
      exact ne_of_lt (hlt q hq)
    · rw [List.map_map]
      have hcomp : (rowKey m ∘ fun r : Fin m × Fin m × ℚ =>
          (r.1, r.2.1, D r.1 r.2.1)) = rowKey m := by
        funext r
        rfl
      rw [hcomp]
      exact mergedRows_keys_nodup m clone group cbg D
    · refine List.pairwise_of_forall_mem_list ?_
      intro r hr q hq
      rw [List.mem_map] at hr hq
      obtain ⟨r0, hr0, rfl⟩ := hr
      obtain ⟨q0, hq0, rfl⟩ := hq
      rintro ⟨h1, h2⟩
      have h1b : r0.1 = q0.2.1 := h1
      have h2b : r0.2.1 = q0.1 := h2
      have hltr := hlt r0 hr0
      have hltq := hlt q0 hq0
      rw [h2b] at hltr
      rw [← h1b] at hltq
      exact absurd (lt_trans hltr hltq) (lt_irrefl _)
    · intro r hr
      rw [List.mem_map] at hr
      obtain ⟨q, _, rfl⟩ := hr
      rfl

/-- Witness for C6 on two entities sharing a cluster at distance 1: the merged
edge list is the single row (0, 1, 1), which has distinct endpoints and the
matrix entry as weight. -/
theorem edge_list_merge_sound_witness :
    (((0 : Fin 2), (1 : Fin 2), (1 : ℚ)) ∈ edgeListFinal 2 clPair clPair false dEx2) ∧
    ((0 : Fin 2), (1 : Fin 2), (1 : ℚ)).1 ≠ ((0 : Fin 2), (1 : Fin 2), (1 : ℚ)).2.1 ∧
    ((0 : Fin 2), (1 : Fin 2), (1 : ℚ)).2.2 =
      dEx2 ((0 : Fin 2), (1 : Fin 2), (1 : ℚ)).1 ((0 : Fin 2), (1 : Fin 2), (1 : ℚ)).2.1 :=
  ⟨by with_unfolding_all decide,
    (edge_list_merge_sound 2 clPair clPair false dEx2).1 _ (by with_unfolding_all decide),
    (edge_list_merge_sound 2 clPair clPair false dEx2).2.2.2 _ (by with_unfolding_all decide)⟩

/-! ## Claim C7: combination of the per-layer distance matrices -/

/-- Claim C7: with `distance_mode='weighted'` and no explicit weights, the
combined total distance matrix is the simple-mode matrix (elementwise sum of
the per-layer matrices) divided by the number of layers, and with explicit
weights of the correct length every cell is the weighted elementwise sum of
the per-layer cells. -/
theorem weighted_total_combination (m : ℕ) (layers : List (Fin m → Fin m → ℚ))
    (ws : List ℚ) (hw : ws.length = layers.length) :
    weightedTotal m layers none =
      Except.ok (fun i j => sumLayers m layers i j / (layers.length : ℚ)) ∧
    weightedTotal m layers (some ws) =
      Except.ok (fun i j => Finset.univ.sum fun t : Fin layers.length =>
        ws.getD t.val 0 * (layers.get t) i j) := by
  constructor
  · have h1 : weightedTotal m layers none =
        Except.ok (fun i j =>
          (layers.map fun M => (1 / (layers.length : ℚ)) * M i j).sum) := rfl
    rw [h1]
    congr 1
    funext i j
    rw [List.sum_map_mul_left, one_div_mul_eq_div]
    rfl
  · have h2 : weightedTotal m layers (some ws) =
        if ws.length = layers.length then
          Except.ok (fun i j => ((ws.zip layers).map fun p => p.1 * p.2 i j).sum)
        else
          Except.error ("Length of provided weights should be the number of layers.") := rfl
    rw [h2, if_pos hw]
    congr 1
    funext i j
    exact zip_mul_sum_eq_indexed ws layers (fun M => M i j) hw

/-- Witness for C7 at the two concrete layers with weights (0.3, 0.7). -/
theorem weighted_total_combination_witness :
    (([(3 : ℚ)/10, 7/10] : List ℚ).length =
      ([cdLayer, dHalf] : List (Fin 2 → Fin 2 → ℚ)).length) ∧
    (weightedTotal 2 [cdLayer, dHalf] none =
      Except.ok (fun i j => sumLayers 2 [cdLayer, dHalf] i j /
        (([cdLayer, dHalf] : List (Fin 2 → Fin 2 → ℚ)).length : ℚ)) ∧
    weightedTotal 2 [cdLayer, dHalf] (some [(3 : ℚ)/10, 7/10]) =
      Except.ok (fun i j =>
        Finset.univ.sum fun t : Fin ([cdLayer, dHalf] : List (Fin 2 → Fin 2 → ℚ)).length =>
          ([(3 : ℚ)/10, 7/10] : List ℚ).getD t.val 0 *
            (([cdLayer, dHalf] : List (Fin 2 → Fin 2 → ℚ)).get t) i j)) :=
  ⟨by decide, weighted_total_combination 2 [cdLayer, dHalf] [(3 : ℚ)/10, 7/10] (by decide)⟩

/-! ## Claim C2: clone_degree -/

/-- Claim C2 (divergence): on two entities with a single layer putting them at
distance 1, `clone_degree` assigns the value 2 to entity 0 (the code builds a
self-loop per entity from `zip(index, index, A.data)` and networkx counts the
self-loop twice), while the weighted degree described by the specification is
1 (the single incident edge weight). -/
theorem clone_degree_self_loop_divergence :
    cloneDegree 2 [cdLayer] 0 = some 2 ∧ weightedDegreeSpec 2 [cdLayer] 0 = 1 ∧
    cloneDegree 2 [cdLayer] 0 ≠ some (weightedDegreeSpec 2 [cdLayer] 0) := by
  refine ⟨?_, ?_, ?_⟩ <;> with_unfolding_all decide

/-! ## Claim C5: the trimming policy of generate_layout -/

/-- Claim C5: in `generate_layout`, with `min_size == 2` exactly the isolates
of the full graph are removed from the trimmed graph, and with `min_size > 2`
exactly the nodes whose degree exceeds `min_size` are removed. -/
theorem generate_layout_trimming_policy (V : List ℕ) (E : List (ℕ × ℕ × ℚ))
    (ms v : ℕ) :
    (ms = 2 →
      ((v ∈ nxNodes V E ∧ v ∉ trimmedNodes V E ms) ↔
        (v ∈ nxNodes V E ∧ nxDegree V E v = 0))) ∧
    (2 < ms →
      ((v ∈ nxNodes V E ∧ v ∉ trimmedNodes V E ms) ↔
        (v ∈ nxNodes V E ∧ ms < nxDegree V E v))) := by
  constructor
  · intro h2
    subst h2
    unfold trimmedNodes
    rw [if_pos rfl]
    simp only [List.mem_filter, decide_eq_true_eq]
    constructor
    · rintro ⟨hv, hnf⟩
      refine ⟨hv, ?_⟩
      by_contra hdeg
      exact hnf ⟨hv, hdeg⟩
    · rintro ⟨hv, hdeg⟩
      exact ⟨hv, fun hf => hf.2 hdeg⟩
  · intro hgt
    unfold trimmedNodes
    rw [if_neg (by omega), if_pos hgt]
    simp only [List.mem_filter, decide_eq_true_eq]
    constructor
    · rintro ⟨hv, hnf⟩
      refine ⟨hv, ?_⟩
      by_contra hdeg
      exact hnf ⟨hv, hdeg⟩
    · rintro ⟨hv, hdeg⟩
      exact ⟨hv, fun hf => hf.2 hdeg⟩

/-- Witness for C5 on a concrete graph: with `min_size = 2`, vertex 2 (an
isolate of `V0` with edge list `E0`) is removed exactly because its degree is
zero. -/
theorem generate_layout_trimming_policy_witness :
    ((2 ∈ nxNodes V0 E0 ∧ 2 ∉ trimmedNodes V0 E0 2) ↔
      (2 ∈ nxNodes V0 E0 ∧ nxDegree V0 E0 2 = 0)) :=
  (generate_layout_trimming_policy V0 E0 2 2).1 rfl

/-! ## Claim C8: the all-singletons empty edge list -/

/-- Claim C8: when every cluster is a singleton, `generate_network` produces
the empty (source, target, weight) edge list instead of raising. -/
theorem edge_list_final_all_singletons_empty (m : ℕ) (clone group : Fin m → ℕ)
    (cbg : Bool) (D : Fin m → Fin m → ℚ)
    (h : ∀ c ∈ clusterKeys m (mstKey m clone group cbg),
      (clusterMembers m (mstKey m clone group cbg) c).length ≤ 1) :
    edgeListFinal m clone group cbg D = [] := by
  unfold edgeListFinal
  rw [if_pos]
  unfold retainedKeys
  rw [List.filter_eq_nil_iff]
  intro c hc
  simp only [decide_eq_true_eq]
  have := h c hc
  omega

/-- Witness for C8: two entities in distinct singleton clusters produce the
empty edge list. -/
theorem edge_list_final_all_singletons_empty_witness :
    edgeListFinal 2 clSingle clSingle false dEx2 = [] :=
  edge_list_final_all_singletons_empty 2 clSingle clSingle false dEx2 (by decide)

/-! ## Claim C9: generate_layout raises on a trimmed graph with no edges -/

/-- Claim C9: `generate_layout` raises (the `zip(*...)` unpack of the trimmed
graph's edge-weight attributes fails) exactly when the trimmed graph has zero
edges, so no layouts are returned in that case. -/
theorem generate_layout_zero_edge_error (V : List ℕ) (E : List (ℕ × ℕ × ℚ))
    (ms : ℕ) (g : ℕ → ℚ) :
    edgePairsOf (trimmedNodes V E ms) E = [] ↔
      generateLayout V E ms g = Except.error ("not enough values to unpack") := by
  unfold generateLayout
  constructor
  · intro h
    simp only [h, if_pos]
  · intro h
    by_contra hne
    rw [if_neg hne] at h
    exact absurd h (by simp)

/-- Witness for C9: on the empty merged edge list (the all-singleton case)
`generate_layout` errors. -/
theorem generate_layout_zero_edge_error_witness :
    generateLayout V0 [] 2 zeroStream = Except.error ("not enough values to unpack") :=
  (generate_layout_zero_edge_error V0 [] 2 zeroStream).mp (by decide)

/-! ## Claim C10: integer truncation of the stored MST entries -/

/-- Claim C10: every entry the `mst` adjacency stores for a tree edge is the
edge weight truncated toward zero (for the non-negative distances this is the
floor: the stored integer is at most the weight and exceeds it minus one), and
a tree edge whose combined distance lies strictly between 0 and 1 is stored as
0 and is therefore absent from the MST-derived edge list. -/
theorem mst_entries_truncated (n : ℕ) (d : Fin n → Fin n → ℚ) (i j : Fin n)
    (hmem : (i, j) ∈ mstEdges n d) (hnn : 0 ≤ d i j) :
    ((mstMat n d i j : ℤ) : ℚ) ≤ d i j ∧ d i j < ((mstMat n d i j : ℤ) : ℚ) + 1 ∧
    (d i j < 1 → mstMat n d i j = 0 ∧ (i, j) ∉ mstNonzeroPairs n d) := by
  have hmat : mstMat n d i j = truncInt (d i j) := by
    unfold mstMat
    rw [if_pos hmem]
  have htr : truncInt (d i j) = ⌊d i j⌋ := truncInt_eq_floor (d i j) hnn
  rw [hmat, htr]
  refine ⟨Int.floor_le _, Int.lt_floor_add_one _, ?_⟩
  intro hlt
  have hz : ⌊d i j⌋ = 0 := Int.floor_eq_zero_iff.mpr ⟨hnn, hlt⟩
  constructor
  · exact hz
  · intro hc
    unfold mstNonzeroPairs at hc
    rw [Finset.mem_filter] at hc
    exact hc.2 (by rw [hmat, htr, hz])

/-! ## Claims C3 and C4: the layout routines -/

theorem max_eq_if_lt (a c : ℚ) : max a c = if a < c then c else a := by
  by_cases h : a < c
  · rw [if_pos h, max_eq_right h.le]
  · rw [if_neg h, max_eq_left (not_lt.mp h)]

theorem deltaPos_no_fixed_eq (n : ℕ) (A : Fin n → Fin n → ℚ) (k clamp t : ℚ)
    (pos : Fin n → ℚ × ℚ) (i : Fin n) :
    denseDeltaPos n A k clamp ∅ t pos i = sparseDeltaPos n A k clamp ∅ t pos i := by
  unfold denseDeltaPos sparseDeltaPos denseDisp sparseDisp sparseRowDisp
  rw [if_neg (Finset.not_mem_empty i), if_neg (Finset.not_mem_empty i)]
  simp only [max_eq_if_lt]

theorem loop_no_fixed_eq (n : ℕ) (A : Fin n → Fin n → ℚ) (k clamp threshold dt : ℚ)
    (iters : ℕ) (t : ℚ) (pos : Fin n → ℚ × ℚ) :
    denseLoop n A k clamp ∅ threshold dt iters t pos =
      sparseLoop n A k clamp ∅ threshold dt iters t pos := by
  induction iters generalizing t pos with
  | zero => rfl
  | succ it ih =>
    simp only [denseLoop, sparseLoop, deltaPos_no_fixed_eq]
    by_cases h : frErr n (fun i => sparseDeltaPos n A k clamp ∅ t pos i) < threshold
    · rw [if_pos h, if_pos h]
    · rw [if_neg h, if_neg h]
      exact ih (t - dt) fun i => vadd (pos i) (sparseDeltaPos n A k clamp ∅ t pos i)

/-- Claim C3 (amended): run with a common minimum-distance clamp and no fixed
nodes (the repository's call path never fixes nodes), the dense routine and
the sparse routine compute identical final positions for every graph, every
initial position array, every seed stream and every iteration budget.  As
written in the source the two routines use different clamps (0.001 dense,
0.01 sparse), and then their outputs can differ beyond rounding. -/
theorem dense_sparse_equal_with_common_clamp (clamp : ℚ) (n : ℕ)
    (A : Fin n → Fin n → ℚ) (kOpt : Option ℚ) (posOpt : Option (Fin n → ℚ × ℚ))
    (iterations : ℕ) (threshold : ℚ) (stream : ℕ → ℚ) :
    frDenseC clamp n A kOpt posOpt ∅ iterations threshold stream =
      frSparseC clamp n A kOpt posOpt ∅ iterations threshold stream := by
  unfold frDenseC frSparseC
  exact loop_no_fixed_eq n A _ clamp threshold _ iterations _ _

set_option maxRecDepth 100000 in
/-- Claim C3 (counterexample): with the clamps actually written in the source,
the dense and the sparse routines disagree on a concrete 4-node graph with a
concrete initial position array (two nodes at distance 1/200, which the sparse
path clamps to 1/100 while the dense path does not): the final positions
differ in sign, not merely in rounding. -/
theorem dense_sparse_clamp_counterexample :
    frDense 4 A4 none (some pos4) ∅ 1 (1 / 10000) zeroStream ≠
      frSparse 4 A4 none (some pos4) ∅ 1 (1 / 10000) zeroStream := by
  with_unfolding_all decide

/-- Claim C4 (amended): when an explicit seed is supplied to the layout
routine, the result does not depend on the ambient global random state. -/
theorem layout_reproducible_with_explicit_seed (sa : Option (ℕ → ℚ))
    (h : sa.isSome = true) (n : ℕ) (A : Fin n → Fin n → ℚ) (kOpt : Option ℚ)
    (posOpt : Option (Fin n → ℚ × ℚ)) (fixed : Finset (Fin n)) (iterations : ℕ)
    (threshold : ℚ) (g1 g2 : ℕ → ℚ) :
    frDense n A kOpt posOpt fixed iterations threshold (randomStateResolve sa g1) =
      frDense n A kOpt posOpt fixed iterations threshold (randomStateResolve sa g2) := by
  obtain ⟨s, rfl⟩ := Option.isSome_iff_exists.mp h
  rfl

/-- Witness for the amended C4 at a concrete explicit seed and two distinct
ambient streams. -/
theorem layout_reproducible_with_explicit_seed_witness :
    (some zeroStream).isSome = true ∧
    frDense 4 A4 none none ∅ 1 (1 / 10000) (randomStateResolve (some zeroStream) gStream1) =
      frDense 4 A4 none none ∅ 1 (1 / 10000) (randomStateResolve (some zeroStream) gStream2) :=
  ⟨rfl, layout_reproducible_with_explicit_seed (some zeroStream) rfl 4 A4 none none ∅ 1
    (1 / 10000) gStream1 gStream2⟩

set_option maxRecDepth 100000 in
/-- Claim C4 (counterexample): with the seed argument that `generate_layout`
actually passes (none), the initial positions drawn by the dense routine, and
its final positions, depend on the ambient global random state: two runs with
identical inputs but different ambient streams differ. -/
theorem layout_global_state_dependence :
    frInitPos 4 (randomStateResolve generateLayoutSeedArg gStream1) ≠
      frInitPos 4 (randomStateResolve generateLayoutSeedArg gStream2) ∧
    frDense 4 A4 none none ∅ 1 (1 / 10000) (randomStateResolve generateLayoutSeedArg gStream1) ≠
      frDense 4 A4 none none ∅ 1 (1 / 10000) (randomStateResolve generateLayoutSeedArg gStream2) := by
  constructor <;> with_unfolding_all decide

/-- Witness for C10 at the 2-entity cluster with distance 1/2: the tree edge
(0, 1) is stored as 0 and is missing from the derived edge list. -/
theorem mst_entries_truncated_witness :
    ((0, 1) : Fin 2 × Fin 2) ∈ mstEdges 2 dHalf ∧ (0 : ℚ) ≤ dHalf 0 1 ∧
    mstMat 2 dHalf 0 1 = 0 ∧ ((0, 1) : Fin 2 × Fin 2) ∉ mstNonzeroPairs 2 dHalf :=
  ⟨by with_unfolding_all decide, by with_unfolding_all decide,
    (mst_entries_truncated 2 dHalf 0 1 (by with_unfolding_all decide)
      (by with_unfolding_all decide)).2.2 (by with_unfolding_all decide)⟩

end Dandelion
